import Mathlib

/-!
# Ray-casting core of `skeleton-03_raygen/main.cpp`

A shallow embedding of the progressive ray caster: the random kernel (`RNG`),
the ray/sphere intersection (`Sphere.Hit`), the camera and shading routine
(`App.CastRay`), the accumulation pass (`App.Sample`) and the sampling step of
the frame loop (`App.tick`).

Conventions of the embedding:

* `float` is read as exact arithmetic in a linearly ordered field `F`; the
  distance `Ray.t`, the only scalar the program ever sets to `Inf`, lives in
  `WithTop F`.
* The scalar functions of the maths library (`glm::sqrt`, `glm::atan`, the
  constant behind `glm::radians`) are a parameter `Glm F`.  Statements about
  concrete scenes instantiate it with the real square root, arc tangent and pi.
* The counters keep their width: `rays` is a `uint64_t`, `sampleIndex` a
  `uint32_t`.
* An access outside `colours` or `pixels`, and a `resize` to a negative size,
  have no result (`none`).  `RNG::Rand11` returns `none` for a read outside the
  kernel; the pass `App::Sample` goes on with an unspecified value there
  (`RNG.next`).
* The window, the OpenGL objects, the user interface and the time stamps of
  `App::Run` are not part of the embedding.
-/

namespace RayGen

/-! ## Vectors (`glm::vec2`, `glm::vec3`, `glm::vec4`) -/

/-- The type `glm::vec2`. -/
structure Vec2 (F : Type) where
  x : F
  y : F
deriving DecidableEq

/-- The type `glm::vec3`. -/
structure Vec3 (F : Type) where
  x : F
  y : F
  z : F
deriving DecidableEq

/-- The type `glm::vec4`. -/
structure Vec4 (F : Type) where
  x : F
  y : F
  z : F
  w : F
deriving DecidableEq

/-- The scalar functions the program takes from the maths library: `glm::sqrt`, the
one-argument `glm::atan`, and the constant pi behind `glm::radians`. -/
structure Glm (F : Type) where
  sqrt : F → F
  atan : F → F
  pi : F

section Defs

variable {F : Type} [LinearOrderedField F]

/-- Componentwise `a + b` on `vec3`. -/
def Vec3.add (a b : Vec3 F) : Vec3 F := ⟨a.x + b.x, a.y + b.y, a.z + b.z⟩

/-- Componentwise `a - b` on `vec3`. -/
def Vec3.sub (a b : Vec3 F) : Vec3 F := ⟨a.x - b.x, a.y - b.y, a.z - b.z⟩

/-- Componentwise `a * b` on `vec3`. -/
def Vec3.mul (a b : Vec3 F) : Vec3 F := ⟨a.x * b.x, a.y * b.y, a.z * b.z⟩

/-- The product `v * k` of a `vec3` with a scalar. -/
def Vec3.scale (v : Vec3 F) (k : F) : Vec3 F := ⟨v.x * k, v.y * k, v.z * k⟩

/-- Componentwise `a + b` on `vec4`. -/
def Vec4.add (a b : Vec4 F) : Vec4 F := ⟨a.x + b.x, a.y + b.y, a.z + b.z, a.w + b.w⟩

/-- The product `v * k` of a `vec4` with a scalar (also written `k * v`). -/
def Vec4.scale (v : Vec4 F) (k : F) : Vec4 F := ⟨v.x * k, v.y * k, v.z * k, v.w * k⟩

/-- The function `glm::dot` on `vec3`. -/
def dot (a b : Vec3 F) : F := a.x * b.x + a.y * b.y + a.z * b.z

/-- The function `glm::length2`: the squared length `dot(v, v)`. -/
def length2 (v : Vec3 F) : F := dot v v

/-- The function `glm::normalize`: `v * inversesqrt(dot(v, v))`. -/
def normalize (G : Glm F) (v : Vec3 F) : Vec3 F := v.scale (1 / G.sqrt (dot v v))

/-- The function `glm::radians`: degrees times pi / 180. -/
def radians (G : Glm F) (deg : F) : F := deg * (G.pi / 180)

/-- The constant `Eps = 0.000001f`. -/
def Eps : F := 1 / 1000000

/-! ## Rays, hits and spheres -/

/-- The struct `Color`. -/
structure Color (F : Type) where
  value : Vec3 F
deriving DecidableEq

/-- The struct `Ray`; `t` is `⊤` where the program holds `Inf`. -/
structure Ray (F : Type) where
  origin : Vec3 F
  dir : Vec3 F
  t : WithTop F

/-- The struct `Hit`. -/
structure Hit (F : Type) where
  point : Vec3 F
  normal : Vec3 F
deriving DecidableEq

/-- The struct `Sphere`. -/
structure Sphere (F : Type) where
  center : Vec3 F
  radius : F
deriving DecidableEq

/-- The value-initialised `Hit hit{}`. -/
def Hit.zero : Hit F := ⟨⟨0, 0, 0⟩, ⟨0, 0, 0⟩⟩

/-- The value-initialised `Color color{}`. -/
def Color.zero : Color F := ⟨⟨0, 0, 0⟩⟩

/-- The half-`b` coefficient `glm::dot(oc, ray.dir)` of `Sphere::Hit`. -/
def Sphere.halfB (s : Sphere F) (ray : Ray F) : F := dot (ray.origin.sub s.center) ray.dir

/-- The reduced discriminant `halfB * halfB - c` of `Sphere::Hit`, with
`c = glm::length2(oc) - radius * radius`. -/
def Sphere.disc2 (s : Sphere F) (ray : Ray F) : F :=
  s.halfB ray * s.halfB ray - (length2 (ray.origin.sub s.center) - s.radius * s.radius)

/-- The last three statements of `Sphere::Hit`: store the accepted root in `ray.t`, the
point `origin + dir * root` in `hit.point`, and the normalised `hit.point - center` in
`hit.normal`; report `true`. -/
def Sphere.accept (G : Glm F) (s : Sphere F) (ray : Ray F) (root : F) : Bool × Ray F × Hit F :=
  let point := ray.origin.add (ray.dir.scale root)
  (true, { ray with t := (root : WithTop F) }, ⟨point, normalize G (point.sub s.center)⟩)

/-- The method `Sphere::Hit(Ray& ray, Hit& hit)`: the returned flag together with the ray
and the hit record as the call leaves them. -/
def Sphere.Hit (G : Glm F) (s : Sphere F) (ray : Ray F) (hit : Hit F) : Bool × Ray F × Hit F :=
  if s.disc2 ray < 0 then (false, ray, hit)
  else
    let disc := G.sqrt (s.disc2 ray)
    let root := -(s.halfB ray) - disc
    if root < Eps ∨ ray.t < (root : WithTop F) then
      let root := -(s.halfB ray) + disc
      if root < Eps ∨ ray.t < (root : WithTop F) then (false, ray, hit)
      else s.accept G ray root
    else s.accept G ray root

/-- The alias `Primitive = std::variant<Sphere>`. -/
inductive Primitive (F : Type) where
  | sphere : Sphere F → Primitive F

/-- The dispatch `std::visit([&](auto&& prim) { return prim.Hit(ray, hit); }, primitive)`. -/
def Primitive.Hit (G : Glm F) (p : Primitive F) (ray : Ray F) (hit : Hit F) :
    Bool × Ray F × Hit F :=
  match p with
  | .sphere s => s.Hit G ray hit

/-! ## The random kernel (`struct RNG`) -/

/-- The struct `RNG`.  The field `rng` stands for the engine `std::mt19937_64 rng` read
through `normalizedFloats`: `rng n` is the value the `n`-th next call of
`normalizedFloats(rng)` returns. -/
structure RNG (F : Type) where
  rng : Nat → F
  sampleKernel : List F
  sampleIndex : Nat
  sampleKernelSize : Nat
  regenerate : Bool

/-- The conversion `uint32_t(x)` of a non-negative `float`: truncation, into 32 bits. -/
def toUInt32 [FloorRing F] (x : F) : Nat := Int.toNat ⌊x⌋ % 2 ^ 32

/-- The conversion `int(x)` of a `float`: truncation toward zero. -/
def toInt [FloorRing F] (x : F) : Int := if 0 ≤ x then ⌊x⌋ else ⌈x⌉

/-- The method `RNG::UpdateRandomKernel`: one draw fixes the size, the kernel is resized
to it and every entry is overwritten by the next draw, the read index returns to zero. -/
def RNG.UpdateRandomKernel [FloorRing F] (r : RNG F) : RNG F :=
  let size := toUInt32 (r.rng 0 * 250 + 1000)
  { r with
    rng := fun n => r.rng (n + 1 + size)
    sampleKernelSize := size
    sampleKernel := (List.range size).map (fun i => r.rng (i + 1))
    sampleIndex := 0 }

/-- The method `RNG::Rand11`: the value read by `sampleKernel[sampleIndex++]`, which is
`none` when the index lies outside the kernel, and the generator as the call leaves it. -/
def RNG.Rand11 [FloorRing F] (r : RNG F) : Option F × RNG F :=
  let r1 :=
    if r.sampleIndex > r.sampleKernelSize then
      if r.regenerate then ({ r with sampleIndex := 0 } : RNG F).UpdateRandomKernel
      else { r with sampleIndex := 0 }
    else r
  (r1.sampleKernel[r1.sampleIndex]?, { r1 with sampleIndex := (r1.sampleIndex + 1) % 2 ^ 32 })

/-- The call `rng.Rand11()` as `App::Sample` uses it.  A read outside the kernel does not
stop the program: it yields whatever the memory behind the kernel holds, here `oob r` for
the generator state `r` in which the read happens. -/
def RNG.next [FloorRing F] (oob : RNG F → F) (r : RNG F) : F × RNG F :=
  ((r.Rand11).1.getD (oob r), (r.Rand11).2)

/-! ## The application state (`struct App`) -/

/-- The type `glm::ivec2`. -/
structure IVec2 where
  x : Int
  y : Int
deriving DecidableEq

/-- The fields of `struct App` the ray caster reads or writes.  The window and OpenGL
handles and the two time stamps are left out. -/
structure App (F : Type) where
  windowSize : IVec2
  textureSize : IVec2
  pixels : List (Vec4 F)
  rng : RNG F
  texSizeMultiplier : F
  fovDegrees : F
  sample : Int
  rays : Nat
  colours : List (Color F)
  primitives : List (Primitive F)

/-- The locals `ray`, `hit`, `color` of `App::CastRay` together with the counter `rays`. -/
structure Trav (F : Type) where
  ray : Ray F
  hit : Hit F
  color : Color F
  rays : Nat

/-- One iteration of the search loop of `App::CastRay`:
`rays++; if (prim.Hit(ray, hit)) color = colours[i];`.  Reading `colours[i]` outside the
list is a fault (`none`). -/
def searchStep (G : Glm F) (colours : List (Color F)) (st : Trav F) (i : Nat)
    (p : Primitive F) : Option (Trav F) :=
  let r := p.Hit G st.ray st.hit
  if r.1 then
    match colours[i]? with
    | some c => some ⟨r.2.1, r.2.2, c, (st.rays + 1) % 2 ^ 64⟩
    | none => none
  else some ⟨r.2.1, r.2.2, st.color, (st.rays + 1) % 2 ^ 64⟩

/-- The search loop `for (int i = 0; i < primitives.size(); ++i)` of `App::CastRay`, from
index `i` on. -/
def searchLoop (G : Glm F) (colours : List (Color F)) :
    List (Primitive F) → Nat → Trav F → Option (Trav F)
  | [], _, st => some st
  | p :: ps, i, st =>
    match searchStep G colours st i p with
    | some st1 => searchLoop G colours ps (i + 1) st1
    | none => none

/-- One iteration of the shadow loop of `App::CastRay`: `rays++; prim.Hit(ray, hit);`. -/
def shadowStep (G : Glm F) (st : Trav F) (p : Primitive F) : Trav F :=
  let r := p.Hit G st.ray st.hit
  ⟨r.2.1, r.2.2, st.color, (st.rays + 1) % 2 ^ 64⟩

/-- The shadow loop `for (auto& primitive : primitives)` of `App::CastRay`. -/
def shadowLoop (G : Glm F) (prims : List (Primitive F)) (st : Trav F) : Trav F :=
  prims.foldl (shadowStep G) st

/-- The unnormalised direction `X * ndc.x + Y * ndc.y + Z` of `App::CastRay`, with
`aspect = float(textureSize.x) / float(textureSize.y)`, `fov = glm::radians(fovDegrees)`,
`Z = (0, 0, -1 / glm::atan(fov * 0.5f))`, `X = (aspect, 0, 0)`, `Y = (0, 1, 0)`. -/
def App.rawDir (G : Glm F) (app : App F) (ndc : Vec2 F) : Vec3 F :=
  let aspect : F := (app.textureSize.x : F) / (app.textureSize.y : F)
  let fov := radians G app.fovDegrees
  let Z : Vec3 F := ⟨0, 0, -1 / G.atan (fov * (1 / 2))⟩
  let X : Vec3 F := ⟨aspect, 0, 0⟩
  let Y : Vec3 F := ⟨0, 1, 0⟩
  ((X.scale ndc.x).add (Y.scale ndc.y)).add Z

/-- The primary ray `Ray ray{pos, dir, Inf}` of `App::CastRay`, `pos = (0, 0, 1)`. -/
def App.primaryRay (G : Glm F) (app : App F) (ndc : Vec2 F) : Ray F :=
  ⟨⟨0, 0, 1⟩, normalize G (app.rawDir G ndc), ⊤⟩

/-- The light direction `glm::normalize(glm::vec3(-2.f, 1.f, 1.f))`. -/
def lightDir (G : Glm F) : Vec3 F := normalize G ⟨-2, 1, 1⟩

/-- The method `App::CastRay(ndc)`: the colour returned and the application with the
counter `rays` advanced; `none` when the search loop reads outside `colours`. -/
def App.CastRay (G : Glm F) (app : App F) (ndc : Vec2 F) : Option (Vec4 F × App F) :=
  match searchLoop G app.colours app.primitives 0
      ⟨app.primaryRay G ndc, Hit.zero, Color.zero, app.rays⟩ with
  | none => none
  | some st =>
    if st.ray.t = ⊤ then some (⟨0, 0, 0, 1⟩, { app with rays := st.rays })
    else
      let light := dot st.hit.normal (lightDir G)
      let sh := shadowLoop G app.primitives
        ⟨⟨st.hit.point, lightDir G, ⊤⟩, Hit.zero, st.color, st.rays⟩
      if sh.ray.t < ⊤ then some (⟨0, 0, 0, 1⟩, { app with rays := sh.rays })
      else
        let c := st.color.value.mul ⟨light, light, light⟩
        some (⟨c.x, c.y, c.z, 1⟩, { app with rays := sh.rays })

/-- The method `App::ResetSamples`. -/
def App.ResetSamples (app : App F) : App F := { app with sample := 0, rays := 0 }

/-- The call `std::vector::resize(n)`: the first `n` elements are kept and
value-initialised ones are appended up to length `n`. -/
def resize (l : List (Vec4 F)) (n : Nat) : List (Vec4 F) :=
  l.take n ++ List.replicate (n - l.length) ⟨0, 0, 0, 0⟩

/-- The method `App::ResizeTexture(w, h)`.  The product `w * h` is an `int` handed to
`resize` as a `size_t`: when it is negative or does not fit an `int` the call has no
result (`none`). -/
def App.ResizeTexture (app : App F) (w h : Int) : Option (App F) :=
  if 0 ≤ w * h ∧ w * h < 2 ^ 31 then
    some ({ app with textureSize := ⟨w, h⟩, pixels := resize app.pixels (w * h).toNat } :
      App F).ResetSamples
  else none

/-- The method `App::OnResize(w, h)`. -/
def App.OnResize [FloorRing F] (app : App F) (w h : Int) : Option (App F) :=
  ({ app with windowSize := ⟨w, h⟩ } : App F).ResizeTexture
    (toInt ((w : F) * app.texSizeMultiplier)) (toInt ((h : F) * app.texSizeMultiplier))

/-- The right-hand side `CastRay(ndc)` of the body of the pixel loop of `App::Sample` at
pixel `(x, y)`: two draws of `rng.Rand11()` give the jittered `ndc`, then the ray is cast. -/
def App.pixelCast [FloorRing F] (G : Glm F) (oob : RNG F → F) (jitter : F)
    (y x : Nat) (app : App F) : Option (Vec4 F × App F) :=
  let d1 := app.rng.next oob
  let d2 := d1.2.next oob
  let ndc : Vec2 F :=
    ⟨((x : F) + 1 / 2 + jitter * (1 / 2) * d1.1) * 2 / (app.textureSize.x : F) - 1,
     ((y : F) + 1 / 2 + jitter * (1 / 2) * d2.1) * 2 / (app.textureSize.y : F) - 1⟩
  ({ app with rng := d2.2 } : App F).CastRay G ndc

/-- The update `old * (1.f - weight) + weight * c` of one pixel. -/
def blend (weight : F) (old c : Vec4 F) : Vec4 F := (old.scale (1 - weight)).add (c.scale weight)

/-- The body of the pixel loop of `App::Sample` at pixel `(x, y)`:
`Pixel(x, y) = Pixel(x, y) * (1.f - weight) + weight * CastRay(ndc)` with
`Pixel(x, y) = pixels[y * textureSize.x + x]`; an index outside `pixels` is a fault. -/
def App.samplePixel [FloorRing F] (G : Glm F) (oob : RNG F → F) (weight jitter : F)
    (y x : Nat) (app : App F) : Option (App F) :=
  match app.pixelCast G oob jitter y x with
  | none => none
  | some (c, app1) =>
    let idx : Int := (y : Int) * app1.textureSize.x + (x : Int)
    if 0 ≤ idx then
      match app1.pixels[idx.toNat]? with
      | some old => some { app1 with pixels := app1.pixels.set idx.toNat (blend weight old c) }
      | none => none
    else none

/-- The loop `for (int i = 0; i < n; ++i)` over a body that may fault. -/
def forLoop {S : Type} (n : Int) (body : Nat → S → Option S) (s : S) : Option S :=
  (List.range n.toNat).foldlM (fun st i => body i st) s

/-- The method `App::Sample(weight, jitter)`. -/
def App.Sample [FloorRing F] (G : Glm F) (oob : RNG F → F) (app : App F)
    (weight jitter : F) : Option (App F) :=
  forLoop app.textureSize.y
    (fun y st => forLoop app.textureSize.x (fun x st1 => st1.samplePixel G oob weight jitter y x) st)
    { app with rng := app.rng.UpdateRandomKernel }

/-- The sampling step of one frame of `App::Run`:
`if (sample < 100) { Sample(1.f / ++sample, 1.f); }`. -/
def App.tick [FloorRing F] (G : Glm F) (oob : RNG F → F) (app : App F) : Option (App F) :=
  if app.sample < 100 then
    ({ app with sample := app.sample + 1 } : App F).Sample G oob (1 / ((app.sample + 1 : Int) : F)) 1
  else some app

/-- The branch of the "Texture scale" slider in `App::Run`, when it reports a new
value `v`. -/
def App.setTexScale [FloorRing F] (app : App F) (v : F) : Option (App F) :=
  ({ app with texSizeMultiplier := v } : App F).ResizeTexture
    (toInt ((app.windowSize.x : F) * v)) (toInt ((app.windowSize.y : F) * v))

/-- The branch of the "FOV" slider in `App::Run`, when it reports a new value `v`. -/
def App.setFov (app : App F) (v : F) : App F :=
  ({ app with fovDegrees := v } : App F).ResetSamples

/-! ## Definitions that follow the wording of the specification -/

/-- The method `Sphere::Hit` as the specification words it: a root is accepted when it exceeds `Eps`
and is less than the current `ray.t`; the smaller root is tried first. -/
def Sphere.HitSpec (G : Glm F) (s : Sphere F) (ray : Ray F) (hit : RayGen.Hit F) :
    Bool × Ray F × RayGen.Hit F :=
  let b := dot (ray.origin.sub s.center) ray.dir
  let c := dot (ray.origin.sub s.center) (ray.origin.sub s.center) - s.radius * s.radius
  let disc := b * b - c
  if disc < 0 then (false, ray, hit)
  else if Eps < -b - G.sqrt disc ∧ ((-b - G.sqrt disc : F) : WithTop F) < ray.t then
    s.accept G ray (-b - G.sqrt disc)
  else if Eps < -b + G.sqrt disc ∧ ((-b + G.sqrt disc : F) : WithTop F) < ray.t then
    s.accept G ray (-b + G.sqrt disc)
  else (false, ray, hit)

/-- A root as a candidate distance: itself when it is at least `Eps`, `⊤` otherwise. -/
def admissible (r : F) : WithTop F := if Eps ≤ r then (r : WithTop F) else ⊤

/-- The nearest admissible root of a sphere along the ray `origin + dir * t`, as the
specification words it: the smallest of the two roots `-b ± sqrt(disc)` that is at least
`Eps`; `⊤` when `disc < 0` or neither root is admissible. -/
def Sphere.nearestRoot (G : Glm F) (s : Sphere F) (origin dir : Vec3 F) : WithTop F :=
  let b := dot (origin.sub s.center) dir
  let c := dot (origin.sub s.center) (origin.sub s.center) - s.radius * s.radius
  let disc := b * b - c
  if disc < 0 then ⊤
  else min (admissible (-b - G.sqrt disc)) (admissible (-b + G.sqrt disc))

/-- The nearest admissible root of a primitive. -/
def Primitive.nearestRoot (G : Glm F) (p : Primitive F) (origin dir : Vec3 F) : WithTop F :=
  match p with
  | .sphere s => s.nearestRoot G origin dir

/-- The nearest hit distance of a list of primitives: the minimum of `⊤` and the nearest
admissible roots of its members. -/
def nearestOf (G : Glm F) (prims : List (Primitive F)) (origin dir : Vec3 F) : WithTop F :=
  (prims.map (fun p => p.nearestRoot G origin dir)).foldr min ⊤

/-- The member initialisers of `struct App` together with the scene the constructor
`App::App()` pushes; `windowSize` and `textureSize`, which the constructor sets through
`OnResize`, are zero here.  The argument is the output stream of the default-seeded
engine. -/
def App.start (rng : Nat → F) : App F :=
  { windowSize := ⟨0, 0⟩
    textureSize := ⟨0, 0⟩
    pixels := []
    rng := ⟨rng, [], 0, 0, false⟩
    texSizeMultiplier := 1 / 10
    fovDegrees := 90
    sample := 0
    rays := 0
    colours := [⟨⟨1, 0, 0⟩⟩, ⟨⟨0, 1, 0⟩⟩]
    primitives := [.sphere ⟨⟨-1 / 4, 0, 0⟩, 1 / 2⟩, .sphere ⟨⟨1 / 4, 0, 0⟩, 1 / 2⟩] }

/-- The constructor `App::App()` for a window of `w` by `h` (the size `glfwGetWindowSize`
reports): the initial `OnResize(windowSize.x, windowSize.y)` on the initialised members.
The scene is pushed after that call in the source; `OnResize` does not read it. -/
def App.init [FloorRing F] (rng : Nat → F) (w h : Int) : Option (App F) :=
  (App.start rng).OnResize w h

/-- The generator after `j` calls of `RNG::Rand11`. -/
def RNG.calls [FloorRing F] (j : Nat) (r : RNG F) : RNG F :=
  (fun s : RNG F => (s.Rand11).2)^[j] r

/-- The state of `App::Sample(weight, jitter)` when its loops stand at pixel `(x, y)`: the
kernel is regenerated, rows `0` to `y - 1` are done and so are the first `x` pixels of
row `y`. -/
def App.sampleUpTo [FloorRing F] (G : Glm F) (oob : RNG F → F) (app : App F)
    (weight jitter : F) (y x : Nat) : Option (App F) :=
  (forLoop (y : Int)
    (fun y st => forLoop app.textureSize.x (fun x st1 => st1.samplePixel G oob weight jitter y x) st)
    { app with rng := app.rng.UpdateRandomKernel }).bind
    (forLoop (x : Int) (fun x st1 => st1.samplePixel G oob weight jitter y x))

/-- The colour `CastRay(ndc)` that `App::Sample(weight, jitter)` computes for pixel
`(x, y)`. -/
def App.sampledColour [FloorRing F] (G : Glm F) (oob : RNG F → F) (app : App F)
    (weight jitter : F) (y x : Nat) : Option (Vec4 F) :=
  (app.sampleUpTo G oob weight jitter y x).bind
    (fun st => (st.pixelCast G oob jitter y x).map Prod.fst)

/-- The colour the pass of `App.tick` computes for pixel `(x, y)`. -/
def App.tickColour [FloorRing F] (G : Glm F) (oob : RNG F → F) (app : App F)
    (y x : Nat) : Option (Vec4 F) :=
  ({ app with sample := app.sample + 1 } : App F).sampledColour G oob
    (1 / ((app.sample + 1 : Int) : F)) 1 y x

/-- The state after `k` frames, each running `App.tick`. -/
def App.ticks [FloorRing F] (G : Glm F) (oob : RNG F → F) (app : App F) : Nat → Option (App F)
  | 0 => some app
  | k + 1 => (app.ticks G oob k).bind (fun st => st.tick G oob)

/-- The sum of a list of colours. -/
def Vec4.sum (cs : List (Vec4 F)) : Vec4 F := cs.foldr Vec4.add ⟨0, 0, 0, 0⟩

/-- The arithmetic mean `(c1 + ... + ck) / k` of a list of colours. -/
def Vec4.mean (cs : List (Vec4 F)) : Vec4 F := (Vec4.sum cs).scale (1 / (cs.length : F))

/-- What can happen between two frames besides the sampling step: the window is resized,
the "Texture scale" slider moves, the "FOV" slider moves. -/
inductive Event (F : Type) where
  | tick : Event F
  | resize : Int → Int → Event F
  | texScale : F → Event F
  | fov : F → Event F

/-- The effect of one event on the application. -/
def App.step [FloorRing F] (G : Glm F) (oob : RNG F → F) (app : App F) :
    Event F → Option (App F)
  | .tick => app.tick G oob
  | .resize w h => app.OnResize w h
  | .texScale v => app.setTexScale v
  | .fov v => some (app.setFov v)

/-- The effect of a sequence of events, the first one first. -/
def App.run [FloorRing F] (G : Glm F) (oob : RNG F → F) (app : App F) :
    List (Event F) → Option (App F)
  | [] => some app
  | e :: es => (app.step G oob e).bind (fun st => st.run G oob es)

/-- The pixel buffer has one entry per texel and every primitive has its colour. -/
def App.WF (app : App F) : Prop :=
  app.pixels.length = (app.textureSize.x * app.textureSize.y).toNat
    ∧ app.colours.length = app.primitives.length

/-- The state `st` differs from `s` at most in the generator, the ray counter and the
contents (not the length) of the pixel buffer. -/
def App.Frame (s st : App F) : Prop :=
  st = { s with rng := st.rng, rays := st.rays, pixels := st.pixels }
    ∧ st.pixels.length = s.pixels.length

/-- The invariant of the pass `Sample(weight, jitter)` started in `s`, for a texture `w`
wide: in `st` the first `q` pixels of the buffer hold the blend of their old value with
the colour sampled for them, and the other pixels are untouched. -/
def App.PassInv [FloorRing F] (G : Glm F) (oob : RNG F → F) (s : App F) (weight jitter : F)
    (w q : Nat) (st : App F) : Prop :=
  App.Frame s st
    ∧ ∀ j, j < s.pixels.length →
      (j < q → ∃ c, s.sampledColour G oob weight jitter (j / w) (j % w) = some c
          ∧ st.pixels[j]? = (s.pixels[j]?).map (fun old => blend weight old c))
      ∧ (q ≤ j → st.pixels[j]? = s.pixels[j]?)

end Defs


/-! ## The intersection routine `Sphere::Hit` -/

section SphereHit

variable {F : Type} [LinearOrderedField F]

/-- C1 (amended): for every ray and sphere with `b = dot(origin - center, dir)`,
`c = |origin - center|^2 - radius^2` and `b^2 - c >= 0`, `Sphere::Hit` accepts the smaller
root `-b - sqrt(b^2 - c)` when that root is at least `Eps` and at most the current `ray.t`,
otherwise the larger root `-b + sqrt(b^2 - c)` under the same two conditions, otherwise it
returns false and leaves ray and hit unchanged; on acceptance it returns true, sets `ray.t`
to the root, `hit.point` to `origin + dir * root` and `hit.normal` to the normalised
`hit.point - center`. -/
theorem sphereHit_accepts (G : Glm F) (s : Sphere F) (ray : Ray F) (hit : Hit F)
    (hdisc : 0 ≤ dot (ray.origin.sub s.center) ray.dir * dot (ray.origin.sub s.center) ray.dir
      - (dot (ray.origin.sub s.center) (ray.origin.sub s.center) - s.radius * s.radius)) :
    s.Hit G ray hit =
      (let b := dot (ray.origin.sub s.center) ray.dir
       let c := dot (ray.origin.sub s.center) (ray.origin.sub s.center) - s.radius * s.radius
       let r1 := -b - G.sqrt (b * b - c)
       let r2 := -b + G.sqrt (b * b - c)
       if Eps ≤ r1 ∧ (r1 : WithTop F) ≤ ray.t then
         (true, { ray with t := (r1 : WithTop F) },
           ⟨ray.origin.add (ray.dir.scale r1),
            normalize G ((ray.origin.add (ray.dir.scale r1)).sub s.center)⟩)
       else if Eps ≤ r2 ∧ (r2 : WithTop F) ≤ ray.t then
         (true, { ray with t := (r2 : WithTop F) },
           ⟨ray.origin.add (ray.dir.scale r2),
            normalize G ((ray.origin.add (ray.dir.scale r2)).sub s.center)⟩)
       else (false, ray, hit)) := by
  have hd : ¬ s.disc2 ray < 0 := not_lt.mpr hdisc
  simp only [Sphere.Hit, if_neg hd, Sphere.disc2, Sphere.halfB, length2, Sphere.accept,
    not_lt, ← not_le, ← not_and_or]
  simp only [ite_not]
  split_ifs <;> rfl

/-- C1, the scenario of the specification: the unit sphere at the origin and the ray from
`(0,0,5)` along `(0,0,-1)` with `t = Inf` give a hit with `t = 4`, point `(0,0,1)` and
normal `(0,0,1)`. -/
theorem sphereHit_scenario :
    Sphere.Hit (⟨Real.sqrt, Real.arctan, Real.pi⟩ : Glm ℝ) ⟨⟨0, 0, 0⟩, 1⟩
        ⟨⟨0, 0, 5⟩, ⟨0, 0, -1⟩, ⊤⟩ Hit.zero
      = (true, ⟨⟨0, 0, 5⟩, ⟨0, 0, -1⟩, ((4 : ℝ) : WithTop ℝ)⟩, ⟨⟨0, 0, 1⟩, ⟨0, 0, 1⟩⟩) := by
  rw [sphereHit_accepts _ _ _ _ (by norm_num [dot, Vec3.sub])]
  norm_num [dot, Vec3.sub, Vec3.add, Vec3.scale, normalize, Eps]

/-- C1 as worded fails when a root equals the current `ray.t`: for the unit sphere at the
origin and the ray from `(0,0,5)` along `(0,0,-1)` with `t = 4`, the root `4` is not less
than `ray.t`, so the worded rule reports no hit, while `Sphere::Hit` returns true. -/
theorem sphereHit_ne_HitSpec :
    (Sphere.Hit (⟨Real.sqrt, Real.arctan, Real.pi⟩ : Glm ℝ) ⟨⟨0, 0, 0⟩, 1⟩
        ⟨⟨0, 0, 5⟩, ⟨0, 0, -1⟩, ((4 : ℝ) : WithTop ℝ)⟩ Hit.zero).1 = true
    ∧ Sphere.HitSpec (⟨Real.sqrt, Real.arctan, Real.pi⟩ : Glm ℝ) ⟨⟨0, 0, 0⟩, 1⟩
        ⟨⟨0, 0, 5⟩, ⟨0, 0, -1⟩, ((4 : ℝ) : WithTop ℝ)⟩ Hit.zero
      = (false, ⟨⟨0, 0, 5⟩, ⟨0, 0, -1⟩, ((4 : ℝ) : WithTop ℝ)⟩, Hit.zero) := by
  constructor
  · norm_num [Sphere.Hit, Sphere.disc2, Sphere.halfB, Sphere.accept, length2, dot, Vec3.sub, Eps]
  · norm_num [Sphere.HitSpec, Sphere.accept, dot, Vec3.sub, Eps]
    exact_mod_cast (show (4 : ℝ) ≤ 6 by norm_num)

end SphereHit

/-! ## The camera of `App::CastRay` -/

section Camera

/-- The value `glm::atan` takes at a quarter of pi is below one. -/
theorem arctan_quarter_pi_lt_one : Real.arctan (Real.pi / 4) < 1 := by
  by_contra h
  push_neg at h
  have h2 : Real.arctan (Real.pi / 4) < Real.pi / 2 := Real.arctan_lt_pi_div_two _
  have h3 : Real.arctan (Real.pi / 4) < Real.tan (Real.arctan (Real.pi / 4)) :=
    Real.lt_tan (by linarith) h2
  rw [Real.tan_arctan] at h3
  have := Real.pi_lt_four
  linarith

/-- The value `glm::atan` takes at a quarter of pi is positive. -/
theorem arctan_quarter_pi_pos : 0 < Real.arctan (Real.pi / 4) := by
  rw [← Real.arctan_zero]
  exact Real.arctan_strictMono (by positivity)

/-- C2, the code at `fovDegrees = 90`, `ndc = (1, 0)` and a square texture (aspect 1), over
the reals with the real `sqrt`, `atan` and pi: the unnormalised direction of `App::CastRay`
is `(1, 0, -1 / atan(pi / 4))`, whereas the depth term of the claim, `-1 / tan(fov / 2)`, is
`-1`; so the unnormalised direction is not `(1, 0, -1)` and the direction of the primary ray
is not the normalisation of `(1, 0, -1)`. -/
theorem castRay_fov90_depth_term (app : App ℝ) :
    (({ app with fovDegrees := 90, textureSize := ⟨1, 1⟩ } : App ℝ).rawDir
        ⟨Real.sqrt, Real.arctan, Real.pi⟩ ⟨1, 0⟩
      = ⟨1, 0, -1 / Real.arctan (Real.pi / 4)⟩)
    ∧ -1 / Real.tan (radians (⟨Real.sqrt, Real.arctan, Real.pi⟩ : Glm ℝ) 90 / 2) = -1
    ∧ ({ app with fovDegrees := 90, textureSize := ⟨1, 1⟩ } : App ℝ).rawDir
        ⟨Real.sqrt, Real.arctan, Real.pi⟩ ⟨1, 0⟩ ≠ ⟨1, 0, -1⟩
    ∧ (({ app with fovDegrees := 90, textureSize := ⟨1, 1⟩ } : App ℝ).primaryRay
        ⟨Real.sqrt, Real.arctan, Real.pi⟩ ⟨1, 0⟩).dir
      ≠ normalize ⟨Real.sqrt, Real.arctan, Real.pi⟩ ⟨1, 0, -1⟩ := by
  have hlt := arctan_quarter_pi_lt_one
  have hpos := arctan_quarter_pi_pos
  have hraw : ({ app with fovDegrees := 90, textureSize := ⟨1, 1⟩ } : App ℝ).rawDir
        ⟨Real.sqrt, Real.arctan, Real.pi⟩ ⟨1, 0⟩
      = ⟨1, 0, -1 / Real.arctan (Real.pi / 4)⟩ := by
    have e : (90 : ℝ) * (Real.pi / 180) * (1 / 2) = Real.pi / 4 := by ring
    simp only [App.rawDir, radians, Vec3.add, Vec3.scale, e]
    norm_num
  have hne : (-1 / Real.arctan (Real.pi / 4) : ℝ) ≠ -1 := by
    intro h
    rw [div_eq_iff hpos.ne'] at h
    linarith
  refine ⟨hraw, ?_, ?_, ?_⟩
  · have e : radians (⟨Real.sqrt, Real.arctan, Real.pi⟩ : Glm ℝ) 90 / 2 = Real.pi / 4 := by
      simp only [radians]; ring
    rw [e, Real.tan_pi_div_four]; norm_num
  · rw [hraw]
    intro h
    exact hne (congrArg Vec3.z h)
  · simp only [App.primaryRay, hraw]
    intro h
    have hx := congrArg Vec3.x h
    simp only [normalize, Vec3.scale, dot, one_mul, mul_zero, add_zero, mul_one] at hx
    have h2 : (0 : ℝ) < 1 + -1 * -1 := by norm_num
    have h1 : (0 : ℝ) < 1 + -1 / Real.arctan (Real.pi / 4) * (-1 / Real.arctan (Real.pi / 4)) := by
      have : 0 ≤ -1 / Real.arctan (Real.pi / 4) * (-1 / Real.arctan (Real.pi / 4)) :=
        mul_self_nonneg _
      linarith
    have hs := inv_injective ((one_div _).symm.trans (hx.trans (one_div _)))
    have := (Real.sqrt_inj h1.le h2.le).mp hs
    have h4 : (1 / Real.arctan (Real.pi / 4)) ^ 2 = 1 := by
      have e : (-1 / Real.arctan (Real.pi / 4) * (-1 / Real.arctan (Real.pi / 4)) : ℝ)
          = (1 / Real.arctan (Real.pi / 4)) ^ 2 := by ring
      rw [e] at this; linarith
    have h5 : 1 < 1 / Real.arctan (Real.pi / 4) := by
      rw [lt_div_iff₀ hpos]; linarith
    nlinarith

end Camera

section Traversal
variable {F : Type} [LinearOrderedField F]

/-- The method `Sphere::Hit` never changes the origin or the direction of the ray. -/
theorem sphereHit_origin_dir (G : Glm F) (s : Sphere F) (ray : Ray F) (hit : Hit F) :
    (s.Hit G ray hit).2.1.origin = ray.origin ∧ (s.Hit G ray hit).2.1.dir = ray.dir := by
  unfold Sphere.Hit Sphere.accept
  dsimp only
  split_ifs <;> exact ⟨rfl, rfl⟩

/-- The method `Sphere::Hit` leaves in `ray.t` the smaller of the old `ray.t` and the nearest
admissible root of the sphere. -/
theorem sphereHit_t (G : Glm F) (hsqrt : ∀ x : F, 0 ≤ x → 0 ≤ G.sqrt x) (s : Sphere F)
    (ray : Ray F) (hit : Hit F) :
    (s.Hit G ray hit).2.1.t = min ray.t (s.nearestRoot G ray.origin ray.dir) := by
  rcases ray with ⟨o, dr, t⟩
  unfold Sphere.Hit Sphere.nearestRoot Sphere.accept admissible
  simp only [Sphere.disc2, Sphere.halfB, length2]
  generalize dot (o.sub s.center) dr = b
  generalize b * b - (dot (o.sub s.center) (o.sub s.center) - s.radius * s.radius) = d
  by_cases h0 : d < 0
  · simp [h0]
  · have hq : 0 ≤ G.sqrt d := hsqrt d (not_lt.mp h0)
    have h12 : -b - G.sqrt d ≤ -b + G.sqrt d := by linarith
    simp only [h0, if_false]
    clear hq
    generalize -b - G.sqrt d = r1 at h12 ⊢
    generalize -b + G.sqrt d = r2 at h12 ⊢
    induction t using WithTop.recTopCoe with
    | top =>
      by_cases h1 : r1 < Eps
      · by_cases h2 : r2 < Eps
        · simp [h1, h2, not_le.mpr h1, not_le.mpr h2]
        · simp [h1, h2, not_le.mpr h1, not_lt.mp h2]
      · have h2 : ¬ (r2 < Eps) := fun h => h1 (lt_of_le_of_lt h12 h)
        simp [h1, not_lt.mp h1, not_lt.mp h2, h12]
    | coe t =>
      simp only [WithTop.coe_lt_coe]
      by_cases h1 : r1 < Eps
      · by_cases h2 : r2 < Eps
        · simp [h1, h2, not_le.mpr h1, not_le.mpr h2]
        · by_cases h3 : t < r2
          · simp [h1, h2, h3, not_le.mpr h1, not_lt.mp h2, h3.le]
          · simp [h1, h2, h3, not_le.mpr h1, not_lt.mp h2, not_lt.mp h3]
      · have h2 : ¬ (r2 < Eps) := fun h => h1 (lt_of_le_of_lt h12 h)
        by_cases h3 : t < r1
        · have h4 : t < r2 := lt_of_lt_of_le h3 h12
          simp [h1, h2, h3, h4, not_lt.mp h1, not_lt.mp h2, h12, h3.le]
        · simp [h1, h3, not_lt.mp h1, not_lt.mp h2, h12, not_lt.mp h3]

end Traversal

section Traversal2
variable {F : Type} [LinearOrderedField F]

/-- A primitive's `Hit` keeps origin and direction and leaves in `ray.t` the smaller of the
old `ray.t` and the primitive's nearest admissible root. -/
theorem primitiveHit_ray (G : Glm F) (hsqrt : ∀ x : F, 0 ≤ x → 0 ≤ G.sqrt x) (p : Primitive F)
    (ray : Ray F) (hit : Hit F) :
    (p.Hit G ray hit).2.1.t = min ray.t (p.nearestRoot G ray.origin ray.dir)
    ∧ (p.Hit G ray hit).2.1.origin = ray.origin ∧ (p.Hit G ray hit).2.1.dir = ray.dir := by
  cases p with
  | sphere s => exact ⟨sphereHit_t G hsqrt s ray hit, sphereHit_origin_dir G s ray hit⟩

/-- Whatever one iteration of the search loop returns carries the ray its `Hit` call left. -/
theorem searchStep_ray (G : Glm F) (colours : List (Color F)) (st st1 : Trav F) (i : Nat)
    (p : Primitive F) (h : searchStep G colours st i p = some st1) :
    st1.ray = (p.Hit G st.ray st.hit).2.1 := by
  unfold searchStep at h
  dsimp only at h
  split_ifs at h
  · split at h
    · cases h; rfl
    · cases h
  · cases h; rfl

/-- An iteration of the search loop whose index lies inside `colours` does not fault. -/
theorem searchStep_some (G : Glm F) (colours : List (Color F)) (st : Trav F) (i : Nat)
    (p : Primitive F) (hi : i < colours.length) : ∃ st1, searchStep G colours st i p = some st1 := by
  unfold searchStep
  dsimp only
  split_ifs
  · rw [List.getElem?_eq_getElem hi]; exact ⟨_, rfl⟩
  · exact ⟨_, rfl⟩

/-- The search loop does not fault when `colours` reaches as far as the primitives. -/
theorem searchLoop_some (G : Glm F) (colours : List (Color F)) (ps : List (Primitive F)) :
    ∀ (i : Nat) (st : Trav F), i + ps.length ≤ colours.length →
      ∃ st1, searchLoop G colours ps i st = some st1 := by
  induction ps with
  | nil => intro i st _; exact ⟨st, rfl⟩
  | cons p ps ih =>
    intro i st h
    simp only [List.length_cons] at h
    obtain ⟨st1, h1⟩ := searchStep_some G colours st i p (by omega)
    obtain ⟨st2, h2⟩ := ih (i + 1) st1 (by omega)
    exact ⟨st2, by simp only [searchLoop, h1, h2]⟩

/-- The search loop keeps origin and direction and leaves in `ray.t` the smaller of the
initial `ray.t` and the nearest hit distance of the primitives it tested. -/
theorem searchLoop_ray (G : Glm F) (hsqrt : ∀ x : F, 0 ≤ x → 0 ≤ G.sqrt x)
    (colours : List (Color F)) (ps : List (Primitive F)) :
    ∀ (i : Nat) (st st1 : Trav F), searchLoop G colours ps i st = some st1 →
      st1.ray.t = min st.ray.t (nearestOf G ps st.ray.origin st.ray.dir)
      ∧ st1.ray.origin = st.ray.origin ∧ st1.ray.dir = st.ray.dir := by
  induction ps with
  | nil =>
    intro i st st1 h
    simp only [searchLoop, Option.some.injEq] at h
    subst h
    simp [nearestOf]
  | cons p ps ih =>
    intro i st st1 h
    simp only [searchLoop] at h
    split at h
    · rename_i st2 h2
      have hr := searchStep_ray G colours st st2 i p h2
      obtain ⟨ht, ho, hd⟩ := primitiveHit_ray G hsqrt p st.ray st.hit
      obtain ⟨ht1, ho1, hd1⟩ := ih (i + 1) st2 st1 h
      rw [hr] at ht1 ho1 hd1
      refine ⟨?_, ho1.trans ho, hd1.trans hd⟩
      rw [ht1, ht, ho, hd]
      simp only [nearestOf, List.map_cons, List.foldr_cons, min_assoc]
    · cases h

/-- The search loop over `ps ++ [p]` is the loop over `ps` followed by one more iteration. -/
theorem searchLoop_append_singleton (G : Glm F) (colours : List (Color F))
    (ps : List (Primitive F)) (p : Primitive F) :
    ∀ (i : Nat) (st : Trav F), searchLoop G colours (ps ++ [p]) i st
      = (searchLoop G colours ps i st).bind (fun st1 => searchStep G colours st1 (i + ps.length) p) := by
  induction ps with
  | nil =>
    intro i st
    simp only [List.nil_append, searchLoop, List.length_nil, Nat.add_zero, Option.some_bind]
    cases searchStep G colours st i p <;> rfl
  | cons q ps ih =>
    intro i st
    simp only [List.cons_append, searchLoop, List.length_cons]
    cases searchStep G colours st i q with
    | none => rfl
    | some st1 =>
      have e : i + (ps.length + 1) = i + 1 + ps.length := by omega
      rw [e]
      exact ih (i + 1) st1

/-- The nearest hit distance of a list does not depend on the order of the list. -/
theorem nearestOf_perm (G : Glm F) (ps qs : List (Primitive F)) (h : ps.Perm qs)
    (origin dir : Vec3 F) : nearestOf G ps origin dir = nearestOf G qs origin dir := by
  unfold nearestOf
  have : LeftCommutative (min : WithTop F → WithTop F → WithTop F) :=
    ⟨fun a b c => by rw [← min_assoc, min_comm a b, min_assoc]⟩
  exact (h.map _).foldr_eq _

end Traversal2

section Traversal3
variable {F : Type} [LinearOrderedField F]

/-- C3: in the search loop of `App::CastRay`, for every list of primitives (with a colour
for each) and every ray that starts with `t = Inf`: after the first `k` primitives `ray.t` is
the minimum of `Inf` and the nearest admissible roots of those `k` primitives; no `Hit` call
increases `ray.t`, so `ray.t` after `k + 1` primitives is at most `ray.t` after `k`; the
final `ray.t` is the nearest hit distance of the whole scene (`Inf` if nothing is hit); and
it is the same for every permutation of the primitive list. -/
theorem searchLoop_nearest_hit (G : Glm F) (hsqrt : ∀ x : F, 0 ≤ x → 0 ≤ G.sqrt x)
    (colours : List (Color F)) (prims : List (Primitive F))
    (hlen : prims.length ≤ colours.length) (st0 : Trav F) (ht : st0.ray.t = ⊤) :
    (∀ k, k ≤ prims.length →
      ∃ st, searchLoop G colours (prims.take k) 0 st0 = some st
        ∧ st.ray.t = nearestOf G (prims.take k) st0.ray.origin st0.ray.dir)
    ∧ (∀ (p : Primitive F) (ray : Ray F) (hit : Hit F), (p.Hit G ray hit).2.1.t ≤ ray.t)
    ∧ (∀ k st st1, k < prims.length →
        searchLoop G colours (prims.take k) 0 st0 = some st →
        searchLoop G colours (prims.take (k + 1)) 0 st0 = some st1 → st1.ray.t ≤ st.ray.t)
    ∧ (∃ st, searchLoop G colours prims 0 st0 = some st
        ∧ st.ray.t = nearestOf G prims st0.ray.origin st0.ray.dir)
    ∧ (∀ (prims2 : List (Primitive F)) (colours2 : List (Color F)), prims.Perm prims2 →
        prims2.length ≤ colours2.length →
        ∃ st st2, searchLoop G colours prims 0 st0 = some st
          ∧ searchLoop G colours2 prims2 0 st0 = some st2 ∧ st2.ray.t = st.ray.t) := by
  have key : ∀ (cs : List (Color F)) (ps : List (Primitive F)), ps.length ≤ cs.length →
      ∃ st, searchLoop G cs ps 0 st0 = some st
        ∧ st.ray.t = nearestOf G ps st0.ray.origin st0.ray.dir := by
    intro cs ps h
    obtain ⟨st, hst⟩ := searchLoop_some G cs ps 0 st0 (by omega)
    refine ⟨st, hst, ?_⟩
    rw [(searchLoop_ray G hsqrt cs ps 0 st0 st hst).1, ht, min_eq_right le_top]
  have hmono : ∀ (p : Primitive F) (ray : Ray F) (hit : Hit F),
      (p.Hit G ray hit).2.1.t ≤ ray.t := by
    intro p ray hit
    rw [(primitiveHit_ray G hsqrt p ray hit).1]
    exact min_le_left _ _
  refine ⟨?_, hmono, ?_, key colours prims hlen, ?_⟩
  · intro k hk
    exact key colours (prims.take k) (by rw [List.length_take]; omega)
  · intro k st st1 hk h1 h2
    rw [List.take_succ, List.getElem?_eq_getElem hk] at h2
    simp only [Option.toList] at h2
    rw [searchLoop_append_singleton, h1] at h2
    simp only [Option.some_bind] at h2
    rw [searchStep_ray G colours st st1 _ _ h2]
    exact hmono _ _ _
  · intro prims2 colours2 hp h2
    obtain ⟨st, hs, hst⟩ := key colours prims hlen
    obtain ⟨st2, hs2, hst2⟩ := key colours2 prims2 h2
    exact ⟨st, st2, hs, hs2, by rw [hst, hst2, nearestOf_perm G prims prims2 hp]⟩

/-- C3 on the scene of the program: for the two spheres of `App::App` and the ray from
`(0,0,1)` along `(0,0,-1)` the search loop ends with the nearest hit distance of the scene
in `ray.t`. -/
theorem searchLoop_nearest_hit_scene :
    ∃ st, searchLoop (⟨Real.sqrt, Real.arctan, Real.pi⟩ : Glm ℝ)
        [⟨⟨1, 0, 0⟩⟩, ⟨⟨0, 1, 0⟩⟩]
        [.sphere ⟨⟨-1 / 4, 0, 0⟩, 1 / 2⟩, .sphere ⟨⟨1 / 4, 0, 0⟩, 1 / 2⟩] 0
        ⟨⟨⟨0, 0, 1⟩, ⟨0, 0, -1⟩, ⊤⟩, Hit.zero, Color.zero, 0⟩ = some st
      ∧ st.ray.t = nearestOf (⟨Real.sqrt, Real.arctan, Real.pi⟩ : Glm ℝ)
        [.sphere ⟨⟨-1 / 4, 0, 0⟩, 1 / 2⟩, .sphere ⟨⟨1 / 4, 0, 0⟩, 1 / 2⟩] ⟨0, 0, 1⟩ ⟨0, 0, -1⟩ :=
  (searchLoop_nearest_hit (⟨Real.sqrt, Real.arctan, Real.pi⟩ : Glm ℝ)
    (fun x _ => Real.sqrt_nonneg x) [⟨⟨1, 0, 0⟩⟩, ⟨⟨0, 1, 0⟩⟩]
    [.sphere ⟨⟨-1 / 4, 0, 0⟩, 1 / 2⟩, .sphere ⟨⟨1 / 4, 0, 0⟩, 1 / 2⟩] (by simp)
    ⟨⟨⟨0, 0, 1⟩, ⟨0, 0, -1⟩, ⊤⟩, Hit.zero, Color.zero, 0⟩ rfl).2.2.2.1

end Traversal3

section Shading
variable {F : Type} [LinearOrderedField F]

/-- The shadow loop keeps origin and direction and leaves in `ray.t` the smaller of the
initial `ray.t` and the nearest hit distance of the primitives. -/
theorem shadowLoop_ray (G : Glm F) (hsqrt : ∀ x : F, 0 ≤ x → 0 ≤ G.sqrt x)
    (ps : List (Primitive F)) :
    ∀ st : Trav F,
      (shadowLoop G ps st).ray.t = min st.ray.t (nearestOf G ps st.ray.origin st.ray.dir)
      ∧ (shadowLoop G ps st).ray.origin = st.ray.origin
      ∧ (shadowLoop G ps st).ray.dir = st.ray.dir := by
  induction ps with
  | nil => intro st; simp [shadowLoop, nearestOf]
  | cons p ps ih =>
    intro st
    obtain ⟨ht, ho, hd⟩ := primitiveHit_ray G hsqrt p st.ray st.hit
    obtain ⟨ht1, ho1, hd1⟩ := ih (shadowStep G st p)
    have hs : (shadowStep G st p).ray = (p.Hit G st.ray st.hit).2.1 := rfl
    simp only [shadowLoop, List.foldl_cons] at ht1 ho1 hd1 ⊢
    rw [hs] at ht1 ho1 hd1
    refine ⟨?_, ho1.trans ho, hd1.trans hd⟩
    rw [ht1, ht, ho, hd]
    simp only [nearestOf, List.map_cons, List.foldr_cons, min_assoc]

/-- A list has a finite nearest hit distance exactly when one of its members has an
admissible root. -/
theorem nearestOf_lt_top (G : Glm F) (ps : List (Primitive F)) (origin dir : Vec3 F) :
    nearestOf G ps origin dir < ⊤ ↔ ∃ p ∈ ps, p.nearestRoot G origin dir < ⊤ := by
  induction ps with
  | nil => simp [nearestOf]
  | cons p ps ih =>
    have e : nearestOf G (p :: ps) origin dir
        = min (p.nearestRoot G origin dir) (nearestOf G ps origin dir) := rfl
    rw [e, min_lt_iff, ih]
    simp

/-- C4: `App::CastRay`, for every `ndc` and every scene whose primitive and colour lists
have equal length (texture height non-zero), returns a colour.  If the search loop leaves
`ray.t` at `Inf` the colour is `(0,0,0,1)`.  Otherwise a shadow ray with origin at the
primary hit point, direction `L = normalize(-2,1,1)` and `t = Inf` is tested against every
primitive of the scene, ending with the nearest hit distance of the scene in its `t`; if
that is finite, which is exactly when some primitive has an admissible root along the
shadow ray, the colour is `(0,0,0,1)`; otherwise it is
`(colour * dot(primary hit normal, L), 1)` with the recorded colour of the primary hit and
the unclamped dot product. -/
theorem castRay_result (G : Glm F) (hsqrt : ∀ x : F, 0 ≤ x → 0 ≤ G.sqrt x) (app : App F)
    (ndc : Vec2 F) (hlen : app.colours.length = app.primitives.length)
    (_hy : app.textureSize.y ≠ 0) :
    ∃ st res,
      searchLoop G app.colours app.primitives 0
        ⟨app.primaryRay G ndc, Hit.zero, Color.zero, app.rays⟩ = some st
      ∧ app.CastRay G ndc = some res
      ∧ (st.ray.t = ⊤ → res.1 = ⟨0, 0, 0, 1⟩)
      ∧ (st.ray.t ≠ ⊤ →
          (shadowLoop G app.primitives
              ⟨⟨st.hit.point, normalize G ⟨-2, 1, 1⟩, ⊤⟩, Hit.zero, st.color, st.rays⟩).ray.t
            = nearestOf G app.primitives st.hit.point (normalize G ⟨-2, 1, 1⟩)
          ∧ ((∃ p ∈ app.primitives,
                p.nearestRoot G st.hit.point (normalize G ⟨-2, 1, 1⟩) < ⊤) →
              res.1 = ⟨0, 0, 0, 1⟩)
          ∧ ((¬ ∃ p ∈ app.primitives,
                p.nearestRoot G st.hit.point (normalize G ⟨-2, 1, 1⟩) < ⊤) →
              res.1 = ⟨st.color.value.x * dot st.hit.normal (normalize G ⟨-2, 1, 1⟩),
                       st.color.value.y * dot st.hit.normal (normalize G ⟨-2, 1, 1⟩),
                       st.color.value.z * dot st.hit.normal (normalize G ⟨-2, 1, 1⟩), 1⟩)) := by
  obtain ⟨st, hst⟩ := searchLoop_some G app.colours app.primitives 0
    ⟨app.primaryRay G ndc, Hit.zero, Color.zero, app.rays⟩ (by omega)
  have hsh := (shadowLoop_ray G hsqrt app.primitives
    ⟨⟨st.hit.point, normalize G ⟨-2, 1, 1⟩, ⊤⟩, Hit.zero, st.color, st.rays⟩).1
  simp only [min_eq_right le_top] at hsh
  have hex := nearestOf_lt_top G app.primitives st.hit.point (normalize G ⟨-2, 1, 1⟩)
  by_cases h1 : st.ray.t = ⊤
  · refine ⟨st, (⟨0, 0, 0, 1⟩, { app with rays := st.rays }), hst, ?_, fun _ => rfl,
      fun h => absurd h1 h⟩
    simp only [App.CastRay, hst, h1, if_true]
  · by_cases h2 : (shadowLoop G app.primitives
        ⟨⟨st.hit.point, normalize G ⟨-2, 1, 1⟩, ⊤⟩, Hit.zero, st.color, st.rays⟩).ray.t < ⊤
    · refine ⟨st, (⟨0, 0, 0, 1⟩, { app with rays := (shadowLoop G app.primitives
        ⟨⟨st.hit.point, normalize G ⟨-2, 1, 1⟩, ⊤⟩, Hit.zero, st.color, st.rays⟩).rays }), hst, ?_,
        fun h => absurd h h1, fun _ => ⟨hsh, fun _ => rfl, fun h => ?_⟩⟩
      · simp only [App.CastRay, hst, h1, if_false, lightDir, h2, if_true]
      · exact absurd (hex.mp (hsh ▸ h2)) h
    · refine ⟨st, (⟨st.color.value.x * dot st.hit.normal (normalize G ⟨-2, 1, 1⟩),
          st.color.value.y * dot st.hit.normal (normalize G ⟨-2, 1, 1⟩),
          st.color.value.z * dot st.hit.normal (normalize G ⟨-2, 1, 1⟩), 1⟩,
        { app with rays := (shadowLoop G app.primitives
          ⟨⟨st.hit.point, normalize G ⟨-2, 1, 1⟩, ⊤⟩, Hit.zero, st.color, st.rays⟩).rays }), hst, ?_,
        fun h => absurd h h1, fun _ => ⟨hsh, fun h => ?_, fun _ => rfl⟩⟩
      · simp only [App.CastRay, hst, h1, if_false, lightDir, h2, Vec3.mul]
      · exact absurd (hsh ▸ hex.mpr h) h2

/-- C4 on the scene of the program: with the two spheres and two colours of `App::App`, a
texture of 80 by 60 and `ndc = (0,0)`, `App::CastRay` returns a colour. -/
theorem castRay_result_scene :
    ∃ res, ({ App.start (fun _ => 0) with textureSize := ⟨80, 60⟩ } : App ℝ).CastRay
      ⟨Real.sqrt, Real.arctan, Real.pi⟩ ⟨0, 0⟩ = some res := by
  obtain ⟨_, res, _, h, _⟩ := castRay_result (⟨Real.sqrt, Real.arctan, Real.pi⟩ : Glm ℝ)
    (fun x _ => Real.sqrt_nonneg x)
    ({ App.start (fun _ => 0) with textureSize := ⟨80, 60⟩ } : App ℝ) ⟨0, 0⟩ rfl (by decide)
  exact ⟨res, h⟩

end Shading

section Kernel
variable {F : Type} [LinearOrderedField F] [FloorRing F]

/-- The kernel `RNG::UpdateRandomKernel` builds has exactly `sampleKernelSize` entries, and
that size fits 32 bits. -/
theorem updateRandomKernel_size (r : RNG F) :
    r.UpdateRandomKernel.sampleKernel.length = r.UpdateRandomKernel.sampleKernelSize
    ∧ r.UpdateRandomKernel.sampleKernelSize < 2 ^ 32
    ∧ r.UpdateRandomKernel.sampleIndex = 0
    ∧ r.UpdateRandomKernel.regenerate = r.regenerate := by
  refine ⟨by simp [RNG.UpdateRandomKernel], ?_, rfl, rfl⟩
  simp only [RNG.UpdateRandomKernel, toUInt32]
  exact Nat.mod_lt _ (by norm_num)

/-- While the read index is below the kernel size, `RNG::Rand11` only advances it. -/
theorem calls_of_le (r : RNG F) (hsize : r.sampleKernelSize < 2 ^ 32) (hidx : r.sampleIndex = 0) :
    ∀ j, j ≤ r.sampleKernelSize → r.calls j = { r with sampleIndex := j } := by
  intro j
  induction j with
  | zero =>
    intro _
    cases r
    simp only at hidx
    subst hidx
    rfl
  | succ j ih =>
    intro hj
    have hprev := ih (by omega)
    simp only [RNG.calls, Function.iterate_succ_apply'] at hprev ⊢
    rw [hprev]
    have h1 : ¬ (j > r.sampleKernelSize) := by omega
    have h2 : (j + 1) % 2 ^ 32 = j + 1 := Nat.mod_eq_of_lt (by omega)
    simp only [RNG.Rand11, h1, if_false, h2]

/-- C8, the code after a regeneration with `regenerate = false`, for a kernel of `n`
entries: calls `1` to `n` of `RNG::Rand11` return the entries `0` to `n - 1`; call `n + 1`
finds the read index equal to `n`, which the test `sampleIndex > sampleKernelSize` lets
through, and reads `sampleKernel[n]`, outside the kernel; only call `n + 2` wraps to
entry `0`. -/
theorem rand11_reads_past_kernel (r : RNG F) :
    (∀ j, j < (({ r with regenerate := false } : RNG F).UpdateRandomKernel).sampleKernelSize →
      ((({ r with regenerate := false } : RNG F).UpdateRandomKernel.calls j).Rand11).1
        = some (r.rng (j + 1)))
    ∧ ((({ r with regenerate := false } : RNG F).UpdateRandomKernel.calls
          (({ r with regenerate := false } : RNG F).UpdateRandomKernel).sampleKernel.length)).sampleIndex
        = (({ r with regenerate := false } : RNG F).UpdateRandomKernel).sampleKernel.length
    ∧ ((({ r with regenerate := false } : RNG F).UpdateRandomKernel.calls
          (({ r with regenerate := false } : RNG F).UpdateRandomKernel).sampleKernel.length).Rand11).1
        = none
    ∧ ((({ r with regenerate := false } : RNG F).UpdateRandomKernel.calls
          ((({ r with regenerate := false } : RNG F).UpdateRandomKernel).sampleKernel.length
            + 1)).Rand11).1
        = (({ r with regenerate := false } : RNG F).UpdateRandomKernel).sampleKernel[0]? := by
  obtain ⟨hlen, hsize, hidx, hreg⟩ := updateRandomKernel_size ({ r with regenerate := false } : RNG F)
  generalize hr0 : ({ r with regenerate := false } : RNG F).UpdateRandomKernel = r0 at *
  have hk : r0.sampleKernel = (List.range r0.sampleKernelSize).map (fun i => r.rng (i + 1)) := by
    rw [← hr0]; rfl
  have hcalls := calls_of_le r0 hsize hidx
  refine ⟨?_, ?_, ?_, ?_⟩
  · intro j hj
    rw [hcalls j (by omega)]
    have h1 : ¬ (j > r0.sampleKernelSize) := by omega
    simp only [RNG.Rand11, h1, if_false]
    rw [hk]
    simp [hj]
  · rw [hlen, hcalls _ (by omega)]
  · rw [hlen, hcalls _ (by omega)]
    have h1 : ¬ (r0.sampleKernelSize > r0.sampleKernelSize) := by omega
    simp only [RNG.Rand11, h1, if_false]
    exact List.getElem?_eq_none (by omega)
  · have e : r0.calls (r0.sampleKernel.length + 1) = ((r0.calls r0.sampleKernelSize).Rand11).2 := by
      rw [hlen]
      simp only [RNG.calls, Function.iterate_succ_apply']
    rw [e, hcalls _ (by omega)]
    have h1 : ¬ (r0.sampleKernelSize > r0.sampleKernelSize) := by omega
    by_cases h2 : r0.sampleKernelSize + 1 < 2 ^ 32
    · have h3 : (r0.sampleKernelSize + 1) % 4294967296 = r0.sampleKernelSize + 1 := by omega
      simp [RNG.Rand11, h3, hreg]
    · have h3 : (r0.sampleKernelSize + 1) % 4294967296 = 0 := by omega
      simp [RNG.Rand11, h3]

end Kernel

section Ties
variable {F : Type} [LinearOrderedField F]

/-- The method `Sphere::Hit` returns true exactly when the sphere has an admissible root that is at
most the current `ray.t`. -/
theorem sphereHit_flag (G : Glm F) (hsqrt : ∀ x : F, 0 ≤ x → 0 ≤ G.sqrt x) (s : Sphere F)
    (ray : Ray F) (hit : Hit F) :
    (s.Hit G ray hit).1 = true ↔
      s.nearestRoot G ray.origin ray.dir ≤ ray.t ∧ s.nearestRoot G ray.origin ray.dir ≠ ⊤ := by
  rcases ray with ⟨o, dr, t⟩
  unfold Sphere.Hit Sphere.nearestRoot Sphere.accept admissible
  simp only [Sphere.disc2, Sphere.halfB, length2]
  generalize dot (o.sub s.center) dr = b
  generalize b * b - (dot (o.sub s.center) (o.sub s.center) - s.radius * s.radius) = d
  by_cases h0 : d < 0
  · simp [h0]
  · have hq : 0 ≤ G.sqrt d := hsqrt d (not_lt.mp h0)
    have h12 : -b - G.sqrt d ≤ -b + G.sqrt d := by linarith
    simp only [h0, if_false]
    clear hq
    generalize -b - G.sqrt d = r1 at h12 ⊢
    generalize -b + G.sqrt d = r2 at h12 ⊢
    induction t using WithTop.recTopCoe with
    | top =>
      by_cases h1 : r1 < Eps
      · by_cases h2 : r2 < Eps
        · simp [h1, h2, not_le.mpr h1, not_le.mpr h2]
        · simp [h1, h2, not_le.mpr h1, not_lt.mp h2]
      · have h2 : ¬ (r2 < Eps) := fun h => h1 (lt_of_le_of_lt h12 h)
        simp [h1, not_lt.mp h1, not_lt.mp h2, h12]
    | coe t =>
      simp only [WithTop.coe_lt_coe]
      by_cases h1 : r1 < Eps
      · by_cases h2 : r2 < Eps
        · simp [h1, h2, not_le.mpr h1, not_le.mpr h2]
        · by_cases h3 : t < r2
          · simp [h1, h2, h3, not_le.mpr h1, not_lt.mp h2]
          · simp [h1, h2, h3, not_le.mpr h1, not_lt.mp h2, not_lt.mp h3]
      · have h2 : ¬ (r2 < Eps) := fun h => h1 (lt_of_le_of_lt h12 h)
        by_cases h3 : t < r1
        · have h4 : t < r2 := lt_of_lt_of_le h3 h12
          simp [h1, h2, h3, h4, not_lt.mp h1, not_lt.mp h2, h12]
        · simp [h1, h3, not_lt.mp h1, not_lt.mp h2, h12, not_lt.mp h3]

/-- A primitive's `Hit` returns true exactly when the primitive has an admissible root that
is at most the current `ray.t`. -/
theorem primitiveHit_flag (G : Glm F) (hsqrt : ∀ x : F, 0 ≤ x → 0 ≤ G.sqrt x) (p : Primitive F)
    (ray : Ray F) (hit : Hit F) :
    (p.Hit G ray hit).1 = true ↔
      p.nearestRoot G ray.origin ray.dir ≤ ray.t ∧ p.nearestRoot G ray.origin ray.dir ≠ ⊤ := by
  cases p with
  | sphere s => exact sphereHit_flag G hsqrt s ray hit

/-- The colour one iteration of the search loop leaves: `colours[i]` after a hit, the
previous colour otherwise. -/
theorem searchStep_color (G : Glm F) (colours : List (Color F)) (st st1 : Trav F) (i : Nat)
    (p : Primitive F) (h : searchStep G colours st i p = some st1) :
    ((p.Hit G st.ray st.hit).1 = true → colours[i]? = some st1.color)
    ∧ ((p.Hit G st.ray st.hit).1 ≠ true → st1.color = st.color) := by
  unfold searchStep at h
  dsimp only at h
  split_ifs at h with hf
  · split at h
    · rename_i c hc
      cases h
      exact ⟨fun _ => hc, fun hn => absurd hf hn⟩
    · cases h
  · cases h
    exact ⟨fun ht => absurd ht hf, fun _ => rfl⟩

end Ties

section Ties2
variable {F : Type} [LinearOrderedField F]

/-- The colour the search loop holds after any prefix of the primitives: when `ray.t` is
finite it is `colours[i]` for the largest index `i` whose nearest admissible root equals
`ray.t`. -/
theorem searchLoop_color (G : Glm F) (hsqrt : ∀ x : F, 0 ≤ x → 0 ≤ G.sqrt x)
    (colours : List (Color F)) (st0 : Trav F) (ht : st0.ray.t = ⊤) (ps : List (Primitive F)) :
    ∀ st, searchLoop G colours ps 0 st0 = some st → st.ray.t ≠ ⊤ →
      ∃ (i : Nat) (p : Primitive F), ps[i]? = some p ∧ colours[i]? = some st.color
        ∧ p.nearestRoot G st0.ray.origin st0.ray.dir = st.ray.t
        ∧ ∀ (j : Nat) (q : Primitive F), ps[j]? = some q → q.nearestRoot G st0.ray.origin st0.ray.dir = st.ray.t →
            j ≤ i := by
  induction ps using List.reverseRecOn with
  | nil =>
    intro st h hne
    simp only [searchLoop, Option.some.injEq] at h
    subst h
    exact absurd ht hne
  | append_singleton ps p ih =>
    intro st h hne
    rw [searchLoop_append_singleton] at h
    cases hm : searchLoop G colours ps 0 st0 with
    | none => rw [hm] at h; cases h
    | some stm =>
      rw [hm] at h
      simp only [Option.some_bind, Nat.zero_add] at h
      obtain ⟨_, hom, hdm⟩ := searchLoop_ray G hsqrt colours ps 0 st0 stm hm
      have hray := searchStep_ray G colours stm st _ p h
      obtain ⟨hcT, hcF⟩ := searchStep_color G colours stm st _ p h
      have hflag := primitiveHit_flag G hsqrt p stm.ray stm.hit
      have htmin := (primitiveHit_ray G hsqrt p stm.ray stm.hit).1
      rw [hom, hdm] at hflag htmin
      rw [← hray] at htmin
      by_cases hf : (p.Hit G stm.ray stm.hit).1 = true
      · obtain ⟨hle, _⟩ := hflag.mp hf
        refine ⟨ps.length, p, List.getElem?_concat_length ps p, hcT hf, ?_, ?_⟩
        · rw [htmin, min_eq_right hle]
        · intro j q hj _
          have : j < (ps ++ [p]).length := by
            by_contra hc
            rw [List.getElem?_eq_none (not_lt.mp hc)] at hj
            cases hj
          simp only [List.length_append, List.length_singleton] at this
          omega
      · have hst : st.ray.t = stm.ray.t := by
          rw [htmin]
          apply min_eq_left
          by_contra hc
          push_neg at hc
          exact hf (hflag.mpr ⟨hc.le, ne_top_of_lt hc⟩)
        obtain ⟨i, pi, hi, hci, hni, hmax⟩ := ih stm hm (hst ▸ hne)
        have hilt : i < ps.length := by
          by_contra hc
          rw [List.getElem?_eq_none (not_lt.mp hc)] at hi
          cases hi
        refine ⟨i, pi, ?_, ?_, ?_, ?_⟩
        · rw [List.getElem?_append_left hilt]; exact hi
        · rw [hcF hf]; exact hci
        · rw [hst]; exact hni
        · intro j q hj hq
          by_cases hjl : j < ps.length
          · rw [List.getElem?_append_left hjl] at hj
            exact hmax j q hj (hst ▸ hq)
          · exfalso
            have hjlt : j < (ps ++ [p]).length := by
              by_contra hc
              rw [List.getElem?_eq_none (not_lt.mp hc)] at hj
              cases hj
            simp only [List.length_append, List.length_singleton] at hjlt
            have hje : j = ps.length := by omega
            subst hje
            simp only [List.getElem?_concat_length, Option.some.injEq] at hj
            subst hj
            rw [hst] at hq
            exact hf (hflag.mpr ⟨hq.le, hq ▸ (hst ▸ hne)⟩)

end Ties2

section Ties3
variable {F : Type} [LinearOrderedField F]

/-- C10: for every scene whose primitive and colour lists have equal length and every ray
that starts with `t = Inf`, the search loop of `App::CastRay` ends, and when it has hit
something (`ray.t` finite) the colour it recorded is `colours[i]` for a primitive `i` whose
nearest admissible root equals the final `ray.t`; among the primitives at exactly that
distance `i` is the largest index. -/
theorem searchLoop_tie_colour (G : Glm F) (hsqrt : ∀ x : F, 0 ≤ x → 0 ≤ G.sqrt x)
    (colours : List (Color F)) (prims : List (Primitive F))
    (hlen : colours.length = prims.length) (st0 : Trav F) (ht : st0.ray.t = ⊤) :
    ∃ st, searchLoop G colours prims 0 st0 = some st
      ∧ (st.ray.t ≠ ⊤ →
          ∃ (i : Nat) (p : Primitive F), prims[i]? = some p ∧ colours[i]? = some st.color
            ∧ p.nearestRoot G st0.ray.origin st0.ray.dir = st.ray.t
            ∧ ∀ (j : Nat) (q : Primitive F), prims[j]? = some q →
                q.nearestRoot G st0.ray.origin st0.ray.dir = st.ray.t → j ≤ i) := by
  obtain ⟨st, hst⟩ := searchLoop_some G colours prims 0 st0 (by omega)
  exact ⟨st, hst, searchLoop_color G hsqrt colours st0 ht prims st hst⟩

/-- Both spheres of the scene of `App::App` have the nearest admissible root
`1 - sqrt(0.1875)` along the ray from `(0,0,1)` in direction `(0,0,-1)`. -/
theorem scene_nearestRoot (cx : ℝ) (hcx : cx * cx = 1 / 16) :
    Sphere.nearestRoot (⟨Real.sqrt, Real.arctan, Real.pi⟩ : Glm ℝ) ⟨⟨cx, 0, 0⟩, 1 / 2⟩
      ⟨0, 0, 1⟩ ⟨0, 0, -1⟩ = ((1 - Real.sqrt (3 / 16) : ℝ) : WithTop ℝ) := by
  have hs : Real.sqrt (3 / 16) ≤ 1 - 1 / 1000000 := by
    rw [Real.sqrt_le_iff]; norm_num
  have hs0 : 0 ≤ Real.sqrt (3 / 16) := Real.sqrt_nonneg _
  have hb : ((0 - cx) * 0 + (0 - 0) * 0 + (1 - 0) * -1 : ℝ) = -1 := by ring
  have hc : ((0 - cx) * (0 - cx) + (0 - 0) * (0 - 0) + (1 - 0) * (1 - 0) - 1 / 2 * (1 / 2) : ℝ)
      = 13 / 16 := by
    have : (0 - cx) * (0 - cx) = cx * cx := by ring
    rw [this, hcx]; norm_num
  have hd : (-1 : ℝ) * -1 - 13 / 16 = 3 / 16 := by norm_num
  have hn : (- -1 : ℝ) = 1 := by norm_num
  have h0 : ¬ ((3 : ℝ) / 16 < 0) := by norm_num
  have h1 : (1 : ℝ) / 1000000 ≤ 1 - Real.sqrt (3 / 16) := by linarith
  have h2 : (1 : ℝ) / 1000000 ≤ 1 + Real.sqrt (3 / 16) := by linarith
  simp only [Sphere.nearestRoot, dot, Vec3.sub, admissible, Eps]
  rw [hb, hc, hd, hn, if_neg h0, if_pos h1, if_pos h2]
  exact min_eq_left (WithTop.coe_le_coe.mpr (by linarith))

/-- C10, the scenario of the specification: spheres of radius 0.5 centred at `(-0.25,0,0)`
and `(0.25,0,0)` with colours red and green, ray from `(0,0,1)` along `(0,0,-1)`: both
spheres have the nearest admissible root `1 - sqrt(0.1875)`, the search loop ends with that
value in `ray.t`, and the recorded colour is that of index 1, green. -/
theorem searchLoop_tie_colour_scene :
    ∃ st, searchLoop (⟨Real.sqrt, Real.arctan, Real.pi⟩ : Glm ℝ)
        [⟨⟨1, 0, 0⟩⟩, ⟨⟨0, 1, 0⟩⟩]
        [.sphere ⟨⟨-1 / 4, 0, 0⟩, 1 / 2⟩, .sphere ⟨⟨1 / 4, 0, 0⟩, 1 / 2⟩] 0
        ⟨⟨⟨0, 0, 1⟩, ⟨0, 0, -1⟩, ⊤⟩, Hit.zero, Color.zero, 0⟩ = some st
      ∧ Sphere.nearestRoot (⟨Real.sqrt, Real.arctan, Real.pi⟩ : Glm ℝ) ⟨⟨-1 / 4, 0, 0⟩, 1 / 2⟩
          ⟨0, 0, 1⟩ ⟨0, 0, -1⟩ = ((1 - Real.sqrt (3 / 16) : ℝ) : WithTop ℝ)
      ∧ Sphere.nearestRoot (⟨Real.sqrt, Real.arctan, Real.pi⟩ : Glm ℝ) ⟨⟨1 / 4, 0, 0⟩, 1 / 2⟩
          ⟨0, 0, 1⟩ ⟨0, 0, -1⟩ = ((1 - Real.sqrt (3 / 16) : ℝ) : WithTop ℝ)
      ∧ st.ray.t = ((1 - Real.sqrt (3 / 16) : ℝ) : WithTop ℝ)
      ∧ st.color = ⟨⟨0, 1, 0⟩⟩ := by
  have hr1 := scene_nearestRoot (-1 / 4) (by norm_num)
  have hr2 := scene_nearestRoot (1 / 4) (by norm_num)
  obtain ⟨st, hst, hcol⟩ := searchLoop_tie_colour (⟨Real.sqrt, Real.arctan, Real.pi⟩ : Glm ℝ)
    (fun x _ => Real.sqrt_nonneg x) [⟨⟨1, 0, 0⟩⟩, ⟨⟨0, 1, 0⟩⟩]
    [.sphere ⟨⟨-1 / 4, 0, 0⟩, 1 / 2⟩, .sphere ⟨⟨1 / 4, 0, 0⟩, 1 / 2⟩] rfl
    ⟨⟨⟨0, 0, 1⟩, ⟨0, 0, -1⟩, ⊤⟩, Hit.zero, Color.zero, 0⟩ rfl
  have ht := (searchLoop_ray (⟨Real.sqrt, Real.arctan, Real.pi⟩ : Glm ℝ)
    (fun x _ => Real.sqrt_nonneg x) _ _ 0 _ st hst).1
  simp only [nearestOf, List.map_cons, List.map_nil, List.foldr_cons, List.foldr_nil,
    Primitive.nearestRoot, hr1, hr2, min_self, min_eq_right le_top, min_eq_left le_top] at ht
  refine ⟨st, hst, hr1, hr2, ht, ?_⟩
  obtain ⟨i, p, hi, hci, _, hmax⟩ := hcol (by rw [ht]; exact WithTop.coe_ne_top)
  have h1 : 1 ≤ i := hmax 1 (.sphere ⟨⟨1 / 4, 0, 0⟩, 1 / 2⟩) rfl (by
    simp only [Primitive.nearestRoot, hr2, ht])
  have h2 : i < 2 := by
    by_contra hc
    rw [List.getElem?_eq_none (by simpa using hc)] at hi
    cases hi
  have hi1 : i = 1 := by omega
  subst hi1
  simpa using hci.symm

end Ties3

section Pass
variable {F : Type} [LinearOrderedField F] [FloorRing F]

omit [FloorRing F] in
/-- The method `App::CastRay` changes nothing but the counter `rays`. -/
theorem castRay_frame (G : Glm F) (app app1 : App F) (ndc : Vec2 F) (c : Vec4 F)
    (h : app.CastRay G ndc = some (c, app1)) : app1 = { app with rays := app1.rays } := by
  unfold App.CastRay at h
  split at h
  · cases h
  · dsimp only at h
    split_ifs at h <;> cases h <;> rfl

omit [FloorRing F] in
/-- The method `App::CastRay` returns when every primitive has its colour. -/
theorem castRay_some (G : Glm F) (app : App F) (ndc : Vec2 F)
    (hlen : app.colours.length = app.primitives.length) : ∃ res, app.CastRay G ndc = some res := by
  obtain ⟨st, hst⟩ := searchLoop_some G app.colours app.primitives 0
    ⟨app.primaryRay G ndc, Hit.zero, Color.zero, app.rays⟩ (by omega)
  unfold App.CastRay
  rw [hst]
  dsimp only
  split_ifs <;> exact ⟨_, rfl⟩

/-- The ray cast of the loop body changes nothing but the generator and the counter
`rays`. -/
theorem pixelCast_frame (G : Glm F) (oob : RNG F → F) (jitter : F) (y x : Nat)
    (app app1 : App F) (c : Vec4 F) (h : app.pixelCast G oob jitter y x = some (c, app1)) :
    app1 = { app with rng := app1.rng, rays := app1.rays } := by
  unfold App.pixelCast at h
  have := castRay_frame G _ _ _ _ h
  rw [this]

/-- The ray cast of the loop body returns when every primitive has its colour. -/
theorem pixelCast_some (G : Glm F) (oob : RNG F → F) (jitter : F) (y x : Nat) (app : App F)
    (hlen : app.colours.length = app.primitives.length) :
    ∃ res, app.pixelCast G oob jitter y x = some res := by
  unfold App.pixelCast
  exact castRay_some G _ _ hlen

/-- The loop body at a pixel inside the buffer: it casts a ray for a colour `c` and blends
`c` into that pixel, leaving the other pixels as they are. -/
theorem samplePixel_spec (G : Glm F) (oob : RNG F → F) (weight jitter : F) (y x w : Nat)
    (app : App F) (hlen : app.colours.length = app.primitives.length)
    (hw : app.textureSize.x = (w : Int)) (hq : y * w + x < app.pixels.length) :
    ∃ c app1 old, app.pixelCast G oob jitter y x = some (c, app1)
      ∧ app.pixels[y * w + x]? = some old
      ∧ app.samplePixel G oob weight jitter y x
          = some { app1 with pixels := app.pixels.set (y * w + x) (blend weight old c) }
      ∧ app1 = { app with rng := app1.rng, rays := app1.rays } := by
  obtain ⟨⟨c, app1⟩, hc⟩ := pixelCast_some G oob jitter y x app hlen
  have hf := pixelCast_frame G oob jitter y x app app1 c hc
  have hts : app1.textureSize = app.textureSize := by rw [hf]
  have hpx : app1.pixels = app.pixels := by rw [hf]
  have hidx : (y : Int) * app1.textureSize.x + (x : Int) = ((y * w + x : Nat) : Int) := by
    rw [hts, hw]; push_cast; ring
  refine ⟨c, app1, app.pixels[y * w + x], hc, List.getElem?_eq_getElem hq, ?_, hf⟩
  unfold App.samplePixel
  rw [hc]
  simp only [hidx, Int.toNat_ofNat, hpx, Int.natCast_nonneg, if_true,
    List.getElem?_eq_getElem hq]

omit [LinearOrderedField F] [FloorRing F] in
/-- A loop with no iterations left returns its state. -/
theorem forLoop_zero {S : Type} (body : Nat → S → Option S) (s : S) :
    forLoop 0 body s = some s := by
  simp [forLoop]

omit [LinearOrderedField F] [FloorRing F] in
/-- A loop of `k + 1` iterations is the loop of `k` iterations followed by the body at `k`. -/
theorem forLoop_succ {S : Type} (k : Nat) (body : Nat → S → Option S) (s : S) :
    forLoop ((k + 1 : Nat) : Int) body s = (forLoop (k : Int) body s).bind (body k) := by
  simp only [forLoop, Int.toNat_ofNat, List.range_succ, List.foldlM_append]
  cases List.foldlM (fun st i => body i st) s (List.range k) <;> simp

end Pass

section Pass2
variable {F : Type} [LinearOrderedField F] [FloorRing F]

omit [LinearOrderedField F] [FloorRing F] in
/-- A loop bound enters only through its non-negative part. -/
theorem forLoop_toNat {S : Type} (n : Int) (body : Nat → S → Option S) (s : S) :
    forLoop n body s = forLoop ((n.toNat : Nat) : Int) body s := by
  unfold forLoop
  rw [Int.toNat_ofNat]

/-- One row of the pass keeps the pass invariant, pixel by pixel. -/
theorem row_step (G : Glm F) (oob : RNG F → F) (s : App F) (weight jitter : F)
    (hwf : s.WF) (y : Nat) (hy : y < s.textureSize.y.toNat) (sty : App F)
    (hsty : forLoop (y : Int)
      (fun y st => forLoop s.textureSize.x (fun x st1 => st1.samplePixel G oob weight jitter y x) st)
      { s with rng := s.rng.UpdateRandomKernel } = some sty)
    (hinv : s.PassInv G oob weight jitter s.textureSize.x.toNat (y * s.textureSize.x.toNat) sty) :
    ∀ x, x ≤ s.textureSize.x.toNat →
      ∃ st, forLoop (x : Int) (fun x st1 => st1.samplePixel G oob weight jitter y x) sty = some st
        ∧ s.PassInv G oob weight jitter s.textureSize.x.toNat (y * s.textureSize.x.toNat + x) st := by
  intro x
  induction x with
  | zero => intro _; exact ⟨sty, forLoop_zero _ _, hinv⟩
  | succ x ih =>
    intro hx
    obtain ⟨st, hst, ⟨hfr, hlenst⟩, hpix⟩ := ih (by omega)
    set w := s.textureSize.x.toNat with hwdef
    have hwpos : 0 < s.textureSize.x := by
      by_contra hc
      have : s.textureSize.x.toNat = 0 := Int.toNat_eq_zero.mpr (not_lt.mp hc)
      omega
    have hhpos : 0 < s.textureSize.y := by
      by_contra hc
      have : s.textureSize.y.toNat = 0 := Int.toNat_eq_zero.mpr (not_lt.mp hc)
      omega
    have hwc : s.textureSize.x = (w : Int) := (Int.toNat_of_nonneg hwpos.le).symm
    have hhc : s.textureSize.y = (s.textureSize.y.toNat : Int) :=
      (Int.toNat_of_nonneg hhpos.le).symm
    have hlen : s.pixels.length = w * s.textureSize.y.toNat := by
      have e : ((s.textureSize.x * s.textureSize.y).toNat : Int)
          = ((w * s.textureSize.y.toNat : Nat) : Int) := by
        rw [Int.toNat_of_nonneg (mul_nonneg hwpos.le hhpos.le), Nat.cast_mul, ← hwc, ← hhc]
      rw [hwf.1]
      exact_mod_cast e
    have hq : y * w + x < s.pixels.length := by
      rw [hlen]
      calc y * w + x < y * w + w := by omega
        _ = w * (y + 1) := by ring
        _ ≤ w * s.textureSize.y.toNat := Nat.mul_le_mul_left _ hy
    have hst_ts : st.textureSize = s.textureSize := by rw [hfr]
    have hst_c : st.colours = s.colours := by rw [hfr]
    have hst_p : st.primitives = s.primitives := by rw [hfr]
    obtain ⟨c, app1, old, hc, hold, hsp, hf1⟩ := samplePixel_spec G oob weight jitter y x w st
      (by rw [hst_c, hst_p]; exact hwf.2) (by rw [hst_ts]; exact hwc) (by rw [hlenst]; exact hq)
    refine ⟨{ app1 with pixels := st.pixels.set (y * w + x) (blend weight old c) }, ?_, ?_⟩
    · rw [forLoop_succ, hst]; exact hsp
    unfold App.PassInv App.Frame
    refine ⟨⟨?_, ?_⟩, ?_⟩
    · rw [hf1]
      conv_lhs => rw [hfr]
    · simp only [List.length_set]; exact hlenst
    · intro j hj
      have hup : s.sampleUpTo G oob weight jitter y x = some st := by
        simp only [App.sampleUpTo, hsty, Option.some_bind]; exact hst
      have hqdiv : (y * w + x) / w = y := by
        rw [Nat.add_comm, Nat.add_mul_div_right _ _ (by omega : 0 < w), Nat.div_eq_of_lt (by omega)]
        omega
      have hqmod : (y * w + x) % w = x := by
        rw [Nat.add_comm, Nat.add_mul_mod_self_right, Nat.mod_eq_of_lt (by omega)]
      constructor
      · intro hjq
        by_cases hjq2 : j < y * w + x
        · obtain ⟨cj, hcj, hpj⟩ := (hpix j hj).1 hjq2
          refine ⟨cj, hcj, ?_⟩
          dsimp only
          rw [List.getElem?_set_ne (by omega)]
          exact hpj
        · have hje : j = y * w + x := by omega
          subst hje
          refine ⟨c, ?_, ?_⟩
          · rw [hqdiv, hqmod]
            simp only [App.sampledColour, hup, Option.some_bind, hc, Option.map_some']
          · dsimp only
            rw [List.getElem?_set_self (by rw [hlenst]; exact hj)]
            have := (hpix _ hj).2 le_rfl
            rw [hold] at this
            rw [← this]
            rfl
      · intro hjq
        dsimp only
        rw [List.getElem?_set_ne (by omega)]
        exact (hpix j hj).2 (by omega)

end Pass2

section Pass3
variable {F : Type} [LinearOrderedField F] [FloorRing F]

/-- The rows of the pass keep the pass invariant, row by row. -/
theorem rows_step (G : Glm F) (oob : RNG F → F) (s : App F) (weight jitter : F) (hwf : s.WF) :
    ∀ y, y ≤ s.textureSize.y.toNat →
      ∃ sty, forLoop (y : Int)
          (fun y st =>
            forLoop s.textureSize.x (fun x st1 => st1.samplePixel G oob weight jitter y x) st)
          { s with rng := s.rng.UpdateRandomKernel } = some sty
        ∧ s.PassInv G oob weight jitter s.textureSize.x.toNat (y * s.textureSize.x.toNat) sty := by
  intro y
  induction y with
  | zero =>
    intro _
    refine ⟨_, forLoop_zero _ _, ?_⟩
    unfold App.PassInv App.Frame
    refine ⟨⟨rfl, rfl⟩, fun j _ => ⟨fun h => ?_, fun _ => rfl⟩⟩
    omega
  | succ y ih =>
    intro hy
    obtain ⟨sty, hsty, hinv⟩ := ih (by omega)
    obtain ⟨st, hst, hst2⟩ := row_step G oob s weight jitter hwf y (by omega) sty hsty hinv
      s.textureSize.x.toNat le_rfl
    refine ⟨st, ?_, ?_⟩
    · rw [forLoop_succ, hsty]
      simp only [Option.some_bind]
      rw [forLoop_toNat]
      exact hst
    · have e : (y + 1) * s.textureSize.x.toNat = y * s.textureSize.x.toNat + s.textureSize.x.toNat := by
        ring
      rw [e]; exact hst2

/-- One pass of `App::Sample(weight, jitter)` over a well-formed state returns; it changes
nothing but the generator, the ray counter and the pixel contents; and every pixel
`(x, y)` of the texture ends as `old * (1 - weight) + weight * c` for its old value and the
colour `c` cast for it in this pass. -/
theorem sample_pass (G : Glm F) (oob : RNG F → F) (s : App F) (weight jitter : F) (hwf : s.WF) :
    ∃ s1, s.Sample G oob weight jitter = some s1 ∧ App.Frame s s1
      ∧ ∀ y x, y < s.textureSize.y.toNat → x < s.textureSize.x.toNat →
          ∃ old c, s.pixels[y * s.textureSize.x.toNat + x]? = some old
            ∧ s.sampledColour G oob weight jitter y x = some c
            ∧ s1.pixels[y * s.textureSize.x.toNat + x]? = some (blend weight old c) := by
  obtain ⟨s1, hs1, hfr, hpix⟩ := rows_step G oob s weight jitter hwf s.textureSize.y.toNat le_rfl
  refine ⟨s1, ?_, hfr, ?_⟩
  · unfold App.Sample
    rw [forLoop_toNat]
    exact hs1
  · intro y x hy hx
    set w := s.textureSize.x.toNat with hwdef
    have hwpos : 0 < s.textureSize.x := by
      by_contra hc
      have : s.textureSize.x.toNat = 0 := Int.toNat_eq_zero.mpr (not_lt.mp hc)
      omega
    have hhpos : 0 < s.textureSize.y := by
      by_contra hc
      have : s.textureSize.y.toNat = 0 := Int.toNat_eq_zero.mpr (not_lt.mp hc)
      omega
    have hwc : s.textureSize.x = (w : Int) := (Int.toNat_of_nonneg hwpos.le).symm
    have hhc : s.textureSize.y = (s.textureSize.y.toNat : Int) :=
      (Int.toNat_of_nonneg hhpos.le).symm
    have hlen : s.pixels.length = w * s.textureSize.y.toNat := by
      have e : ((s.textureSize.x * s.textureSize.y).toNat : Int)
          = ((w * s.textureSize.y.toNat : Nat) : Int) := by
        rw [Int.toNat_of_nonneg (mul_nonneg hwpos.le hhpos.le), Nat.cast_mul, ← hwc, ← hhc]
      rw [hwf.1]
      exact_mod_cast e
    have hq1 : y * w + x < s.textureSize.y.toNat * w := by
      calc y * w + x < y * w + w := by omega
        _ = (y + 1) * w := by ring
        _ ≤ s.textureSize.y.toNat * w := Nat.mul_le_mul_right _ hy
    have hq : y * w + x < s.pixels.length := by
      rw [hlen, Nat.mul_comm w]; exact hq1
    have hqdiv : (y * w + x) / w = y := by
      rw [Nat.add_comm, Nat.add_mul_div_right _ _ (by omega : 0 < w), Nat.div_eq_of_lt (by omega)]
      omega
    have hqmod : (y * w + x) % w = x := by
      rw [Nat.add_comm, Nat.add_mul_mod_self_right, Nat.mod_eq_of_lt (by omega)]
    obtain ⟨c, hc, hp⟩ := (hpix _ hq).1 hq1
    rw [hqdiv, hqmod] at hc
    refine ⟨s.pixels[y * w + x], c, List.getElem?_eq_getElem hq, hc, ?_⟩
    rw [hp, List.getElem?_eq_getElem hq]
    rfl

end Pass3

section Accumulate
variable {F : Type} [LinearOrderedField F] [FloorRing F]

omit [LinearOrderedField F] [FloorRing F] in
/-- A state that differs from a well-formed one at most in generator, ray counter and
pixel contents is well-formed. -/
theorem wf_of_frame (s s1 : App F) (hwf : s.WF) (hfr : App.Frame s s1) : s1.WF := by
  obtain ⟨h1, h2⟩ := hfr
  unfold App.WF
  rw [h2]
  rw [h1]
  exact hwf

/-- The sampling step below the cap, on a well-formed state: it is one pass of `Sample`
with weight `1 / (sample + 1)`, it returns, raises `sample` by one, keeps the state
well-formed and the texture size, and blends into every pixel the colour cast for it. -/
theorem tick_spec (G : Glm F) (oob : RNG F → F) (s : App F) (hwf : s.WF) (hs : s.sample < 100) :
    ∃ s1, s.tick G oob = some s1 ∧ s1.sample = s.sample + 1 ∧ s1.WF
      ∧ s1.textureSize = s.textureSize
      ∧ ∀ y x, y < s.textureSize.y.toNat → x < s.textureSize.x.toNat →
          ∃ old c, s.pixels[y * s.textureSize.x.toNat + x]? = some old
            ∧ s.tickColour G oob y x = some c
            ∧ s1.pixels[y * s.textureSize.x.toNat + x]?
                = some (blend (1 / ((s.sample + 1 : Int) : F)) old c) := by
  have hwf1 : ({ s with sample := s.sample + 1 } : App F).WF := hwf
  obtain ⟨s1, hs1, hfr, hpix⟩ := sample_pass G oob ({ s with sample := s.sample + 1 } : App F)
    (1 / ((s.sample + 1 : Int) : F)) 1 hwf1
  refine ⟨s1, ?_, ?_, wf_of_frame _ _ hwf1 hfr, ?_, hpix⟩
  · simp only [App.tick, hs, if_true]; exact hs1
  · rw [hfr.1]
  · rw [hfr.1]

omit [FloorRing F] in
/-- The sum of a list of colours extended by one colour. -/
theorem sum_append_singleton (cs : List (Vec4 F)) (c : Vec4 F) :
    Vec4.sum (cs ++ [c]) = (Vec4.sum cs).add c := by
  induction cs with
  | nil => simp [Vec4.sum, Vec4.add]
  | cons a cs ih =>
    have e : Vec4.sum (a :: cs ++ [c]) = a.add (Vec4.sum (cs ++ [c])) := rfl
    have e2 : Vec4.sum (a :: cs) = a.add (Vec4.sum cs) := rfl
    rw [e, ih, e2]
    simp only [Vec4.add, add_assoc]

omit [FloorRing F] in
/-- With weight one the blend is the new colour. -/
theorem blend_one (old c : Vec4 F) : blend 1 old c = c := by
  simp [blend, Vec4.add, Vec4.scale]

omit [FloorRing F] in
/-- Blending the mean of `k >= 1` colours with one more colour at weight `1 / (k + 1)`
gives the mean of the `k + 1` colours. -/
theorem blend_mean (cs : List (Vec4 F)) (c : Vec4 F) (hk : 1 ≤ cs.length) :
    blend (1 / ((cs.length : F) + 1)) (Vec4.mean cs) c = Vec4.mean (cs ++ [c]) := by
  have hk0 : (cs.length : F) ≠ 0 := by
    have : (0 : F) < cs.length := by exact_mod_cast hk
    exact this.ne'
  have hk1 : (cs.length : F) + 1 ≠ 0 := by
    have : (0 : F) ≤ cs.length := Nat.cast_nonneg _
    linarith
  simp only [blend, Vec4.mean, sum_append_singleton, Vec4.add, Vec4.scale, List.length_append,
    List.length_singleton, Nat.cast_add, Nat.cast_one, Vec4.mk.injEq]
  refine ⟨?_, ?_, ?_, ?_⟩ <;> field_simp

end Accumulate

section Accumulate2
variable {F : Type} [LinearOrderedField F] [FloorRing F]

/-- The state after `k <= 100` sampling steps from a reset state: `sample = k`, and each
pixel of the texture holds the mean of the `k` colours cast for it (for `k >= 1`). -/
theorem ticks_inv (G : Glm F) (oob : RNG F → F) (s0 : App F) (hwf : s0.WF)
    (h0 : s0.sample = 0) (y x : Nat) (hy : y < s0.textureSize.y.toNat)
    (hx : x < s0.textureSize.x.toNat) :
    ∀ k, k ≤ 100 →
      ∃ sk cs, s0.ticks G oob k = some sk ∧ sk.sample = (k : Int) ∧ sk.WF
        ∧ sk.textureSize = s0.textureSize ∧ cs.length = k
        ∧ (∀ i, i < k →
            (s0.ticks G oob i).bind (fun si => si.tickColour G oob y x) = cs[i]?)
        ∧ (1 ≤ k → sk.pixels[y * s0.textureSize.x.toNat + x]? = some (Vec4.mean cs)) := by
  intro k
  induction k with
  | zero =>
    intro _
    exact ⟨s0, [], rfl, by simpa using h0, hwf, rfl, rfl, fun i hi => absurd hi (by omega),
      fun h => absurd h (by omega)⟩
  | succ k ih =>
    intro hk
    obtain ⟨sk, cs, hsk, hsample, hwfk, hts, hlen, hcs, hpix⟩ := ih (by omega)
    obtain ⟨s1, hs1, hs1s, hwf1, hts1, hp1⟩ := tick_spec G oob sk hwfk (by rw [hsample]; omega)
    obtain ⟨old, c, hold, hc, hnew⟩ := hp1 y x (by rw [hts]; exact hy) (by rw [hts]; exact hx)
    rw [hts] at hold hnew
    have htk : s0.ticks G oob (k + 1) = some s1 := by
      simp only [App.ticks, hsk, Option.some_bind]; exact hs1
    refine ⟨s1, cs ++ [c], htk, ?_, hwf1, hts1.trans hts, by simp [hlen], ?_, fun _ => ?_⟩
    · rw [hs1s, hsample]; push_cast; ring
    · intro i hi
      by_cases hik : i < k
      · rw [hcs i hik, List.getElem?_append_left (by omega)]
      · have hie : i = k := by omega
        subst hie
        rw [hsk, Option.some_bind, hc, ← hlen, List.getElem?_concat_length]
    · rw [hnew]
      congr 1
      have hw : ((sk.sample + 1 : Int) : F) = (cs.length : F) + 1 := by
        rw [hsample, hlen]; push_cast; ring
      rw [hw]
      by_cases hk1 : 1 ≤ k
      · have := hpix hk1
        rw [hold] at this
        cases this
        exact blend_mean cs c (by omega)
      · have hk0 : k = 0 := by omega
        subst hk0
        have hnil : cs = [] := List.length_eq_zero.mp hlen
        subst hnil
        simp [blend, Vec4.mean, Vec4.sum, Vec4.add, Vec4.scale]

/-- C5: starting from a reset state (`sample = 0`) with arbitrary buffer contents, after
`k` sampling steps (`1 <= k <= 100`) in which the colours cast for a pixel of the texture
were `c1 .. ck`, that pixel equals exactly the arithmetic mean `(c1 + ... + ck) / k`,
whatever the buffer held before; and the first pass after a reset overwrites the pixel
with `c1`. -/
theorem ticks_mean (G : Glm F) (oob : RNG F → F) (s0 : App F) (hwf : s0.WF)
    (h0 : s0.sample = 0) (y x : Nat) (hy : y < s0.textureSize.y.toNat)
    (hx : x < s0.textureSize.x.toNat) (k : Nat) (hk1 : 1 ≤ k) (hk : k ≤ 100) :
    (∃ sk cs, s0.ticks G oob k = some sk ∧ cs.length = k
        ∧ (∀ i, i < k →
            (s0.ticks G oob i).bind (fun si => si.tickColour G oob y x) = cs[i]?)
        ∧ sk.pixels[y * s0.textureSize.x.toNat + x]? = some (Vec4.mean cs))
    ∧ (∃ s1 c1, s0.tick G oob = some s1 ∧ s0.tickColour G oob y x = some c1
        ∧ s1.pixels[y * s0.textureSize.x.toNat + x]? = some c1) := by
  constructor
  · obtain ⟨sk, cs, hsk, _, _, _, hlen, hcs, hpix⟩ := ticks_inv G oob s0 hwf h0 y x hy hx k hk
    exact ⟨sk, cs, hsk, hlen, hcs, hpix hk1⟩
  · obtain ⟨s1, hs1, _, _, _, hp1⟩ := tick_spec G oob s0 hwf (by rw [h0]; norm_num)
    obtain ⟨old, c, _, hc, hnew⟩ := hp1 y x hy hx
    refine ⟨s1, c, hs1, hc, ?_⟩
    rw [hnew, h0]
    simp [blend_one]

/-- C5 on a one-pixel texture: from a reset state whose pixel holds `(5,5,5,5)`, three
sampling steps leave in the pixel the mean of the three colours cast for it. -/
theorem ticks_mean_one_pixel :
    ∃ sk cs, ({ App.start (fun _ => 0) with textureSize := ⟨1, 1⟩, pixels := [⟨5, 5, 5, 5⟩] } :
          App ℝ).ticks ⟨Real.sqrt, Real.arctan, Real.pi⟩ (fun _ => 0) 3 = some sk
      ∧ cs.length = 3 ∧ sk.pixels[0]? = some (Vec4.mean cs) := by
  obtain ⟨⟨sk, cs, h1, h2, _, h4⟩, _⟩ := ticks_mean (⟨Real.sqrt, Real.arctan, Real.pi⟩ : Glm ℝ)
    (fun _ => 0)
    ({ App.start (fun _ => 0) with textureSize := ⟨1, 1⟩, pixels := [⟨5, 5, 5, 5⟩] } : App ℝ)
    ⟨rfl, rfl⟩ rfl 0 0 (by decide) (by decide) 3 (by norm_num) (by norm_num)
  exact ⟨sk, cs, h1, h2, h4⟩

end Accumulate2

section Reset
variable {F : Type} [LinearOrderedField F] [FloorRing F]

omit [FloorRing F] in
/-- The call `resize(n)` leaves a vector of `n` elements. -/
theorem resize_length (l : List (Vec4 F)) (n : Nat) : (resize l n).length = n := by
  simp only [resize, List.length_append, List.length_take, List.length_replicate]
  omega

omit [FloorRing F] in
/-- What `App::ResizeTexture(w, h)` leaves when it returns. -/
theorem resizeTexture_spec (s s1 : App F) (w h : Int) (hr : s.ResizeTexture w h = some s1) :
    s1 = { s with textureSize := ⟨w, h⟩, pixels := resize s.pixels (w * h).toNat,
                  sample := 0, rays := 0 } := by
  unfold App.ResizeTexture at hr
  split_ifs at hr
  cases hr
  rfl

omit [FloorRing F] in
/-- The method `App::ResizeTexture(w, h)` returns when `w * h` is a non-negative `int`. -/
theorem resizeTexture_some (s : App F) (w h : Int) (h0 : 0 ≤ w * h) (h1 : w * h < 2 ^ 31) :
    ∃ s1, s.ResizeTexture w h = some s1 := by
  unfold App.ResizeTexture
  rw [if_pos ⟨h0, h1⟩]
  exact ⟨_, rfl⟩

/-- The sampling step in a state with `sample = 0` is the pass `Sample(1, 1)`. -/
theorem tick_of_sample_zero (G : Glm F) (oob : RNG F → F) (s : App F) (h0 : s.sample = 0) :
    s.tick G oob = ({ s with sample := 1 } : App F).Sample G oob 1 1 := by
  unfold App.tick
  rw [h0]
  simp

/-- C7, the reset law: after `ResizeTexture`, after `OnResize` and the "Texture scale"
slider (both through `ResizeTexture`), and after the "FOV" slider (through
`ResetSamples`), from any prior state, `sample` is exactly 0 and `rays` is exactly 0, and
the pass run by the next sampling step is `Sample` with weight exactly 1.
`ResizeTexture(w, h)` returns whenever `w * h` is a non-negative `int`. -/
theorem reset_law (G : Glm F) (oob : RNG F → F) (s : App F) :
    (∀ w h s1, s.ResizeTexture w h = some s1 →
        s1.sample = 0 ∧ s1.rays = 0
        ∧ s1.tick G oob = ({ s1 with sample := 1 } : App F).Sample G oob 1 1)
    ∧ (∀ w h : Int, 0 ≤ w * h → w * h < 2 ^ 31 → ∃ s1, s.ResizeTexture w h = some s1)
    ∧ (∀ w h s1, s.OnResize w h = some s1 →
        s1.sample = 0 ∧ s1.rays = 0
        ∧ s1.tick G oob = ({ s1 with sample := 1 } : App F).Sample G oob 1 1)
    ∧ (∀ v s1, s.setTexScale v = some s1 →
        s1.sample = 0 ∧ s1.rays = 0
        ∧ s1.tick G oob = ({ s1 with sample := 1 } : App F).Sample G oob 1 1)
    ∧ (∀ v, (s.setFov v).sample = 0 ∧ (s.setFov v).rays = 0
        ∧ (s.setFov v).tick G oob
            = ({ s.setFov v with sample := 1 } : App F).Sample G oob 1 1) := by
  have key : ∀ (a a1 : App F) (w h : Int), a.ResizeTexture w h = some a1 →
      a1.sample = 0 ∧ a1.rays = 0
      ∧ a1.tick G oob = ({ a1 with sample := 1 } : App F).Sample G oob 1 1 := by
    intro a a1 w h hr
    have e := resizeTexture_spec a a1 w h hr
    have hs : a1.sample = 0 := by rw [e]
    have hrays : a1.rays = 0 := by rw [e]
    exact ⟨hs, hrays, tick_of_sample_zero G oob a1 hs⟩
  refine ⟨fun w h s1 hr => key s s1 w h hr, fun w h h0 h1 => resizeTexture_some s w h h0 h1,
    fun w h s1 hr => key _ s1 _ _ hr, fun v s1 hr => key _ s1 _ _ hr,
    fun v => ⟨rfl, rfl, tick_of_sample_zero G oob _ rfl⟩⟩

end Reset

section Cap
variable {F : Type} [LinearOrderedField F] [FloorRing F]

omit [FloorRing F] in
/-- The method `App::ResizeTexture` leaves a well-formed state with `sample = 0` when it starts from a
state in which every primitive has its colour. -/
theorem resizeTexture_wf (s s1 : App F) (w h : Int)
    (hc : s.colours.length = s.primitives.length) (hr : s.ResizeTexture w h = some s1) :
    s1.WF ∧ s1.sample = 0 := by
  have e := resizeTexture_spec s s1 w h hr
  rw [e]
  exact ⟨⟨resize_length _ _, hc⟩, rfl⟩

/-- Every event keeps the state well-formed and `sample` between 0 and 100. -/
theorem step_inv (G : Glm F) (oob : RNG F → F) (s s1 : App F) (e : Event F)
    (hwf : s.WF) (hs : 0 ≤ s.sample ∧ s.sample ≤ 100) (hstep : s.step G oob e = some s1) :
    s1.WF ∧ 0 ≤ s1.sample ∧ s1.sample ≤ 100 := by
  cases e with
  | tick =>
    simp only [App.step] at hstep
    by_cases hlt : s.sample < 100
    · obtain ⟨s2, h2, h2s, h2wf, _⟩ := tick_spec G oob s hwf hlt
      rw [h2] at hstep
      cases hstep
      exact ⟨h2wf, by omega, by omega⟩
    · simp only [App.tick, hlt, if_false] at hstep
      cases hstep
      exact ⟨hwf, hs⟩
  | resize w h =>
    simp only [App.step, App.OnResize] at hstep
    obtain ⟨h1, h2⟩ := resizeTexture_wf ({ s with windowSize := ⟨w, h⟩ } : App F) s1 _ _
      hwf.2 hstep
    exact ⟨h1, by omega, by omega⟩
  | texScale v =>
    simp only [App.step, App.setTexScale] at hstep
    obtain ⟨h1, h2⟩ := resizeTexture_wf ({ s with texSizeMultiplier := v } : App F) s1 _ _
      hwf.2 hstep
    exact ⟨h1, by omega, by omega⟩
  | fov v =>
    simp only [App.step, Option.some.injEq] at hstep
    subst hstep
    exact ⟨hwf, by simp [App.setFov, App.ResetSamples]⟩

/-- Every sequence of events keeps the state well-formed and `sample` between 0 and 100. -/
theorem run_inv (G : Glm F) (oob : RNG F → F) (evs : List (Event F)) :
    ∀ (s s1 : App F), s.WF → 0 ≤ s.sample ∧ s.sample ≤ 100 → s.run G oob evs = some s1 →
      s1.WF ∧ 0 ≤ s1.sample ∧ s1.sample ≤ 100 := by
  induction evs with
  | nil =>
    intro s s1 hwf hs hrun
    simp only [App.run, Option.some.injEq] at hrun
    subst hrun
    exact ⟨hwf, hs⟩
  | cons e es ih =>
    intro s s1 hwf hs hrun
    simp only [App.run] at hrun
    cases hst : s.step G oob e with
    | none => rw [hst] at hrun; cases hrun
    | some s2 =>
      rw [hst] at hrun
      obtain ⟨h1, h2⟩ := step_inv G oob s s2 e hwf hs hst
      exact ih s2 s1 h1 h2 hrun

/-- C6: the sampling step of a frame, in a well-formed state.  With `sample < 100` it is
exactly one pass of `Sample`, with weight `1 / (sample + 1)`, it returns, and it leaves
`sample` increased by exactly 1.  With `sample = 100` it is a no-op: pixel buffer, `sample`
and `rays` stay as they are.  Consequently every state reachable from the state the
constructor leaves, by sampling steps, resizes and slider changes, is well-formed and has
`0 <= sample <= 100`. -/
theorem tick_cap (G : Glm F) (oob : RNG F → F) (s : App F) (hwf : s.WF) :
    (s.sample < 100 →
      s.tick G oob
          = ({ s with sample := s.sample + 1 } : App F).Sample G oob (1 / ((s.sample : F) + 1)) 1
      ∧ ∃ s1, s.tick G oob = some s1 ∧ s1.sample = s.sample + 1)
    ∧ (s.sample = 100 → s.tick G oob = some s)
    ∧ (∀ (rng : Nat → F) (w h : Int) (evs : List (Event F)) (a a1 : App F),
        App.init rng w h = some a → a.run G oob evs = some a1 →
        a1.WF ∧ 0 ≤ a1.sample ∧ a1.sample ≤ 100) := by
  refine ⟨fun hlt => ⟨?_, ?_⟩, fun h100 => ?_, ?_⟩
  · simp only [App.tick, hlt, if_true]
    congr 2
    push_cast
    rfl
  · obtain ⟨s1, h1, h2, _⟩ := tick_spec G oob s hwf hlt
    exact ⟨s1, h1, h2⟩
  · simp [App.tick, h100]
  · intro rng w h evs a a1 hinit hrun
    simp only [App.init, App.OnResize] at hinit
    obtain ⟨h1, h2⟩ := resizeTexture_wf
      ({ App.start rng with windowSize := ⟨w, h⟩ } : App F) a _ _ rfl hinit
    exact run_inv G oob evs a a1 h1 (by omega) hrun

/-- C6 on the members as the constructor initialises them: the first sampling step runs
`Sample` with weight 1 and leaves `sample = 1`. -/
theorem tick_cap_start :
    ∃ s1, (App.start (fun _ => 0) : App ℝ).tick ⟨Real.sqrt, Real.arctan, Real.pi⟩ (fun _ => 0)
        = some s1 ∧ s1.sample = 1 := by
  obtain ⟨_, s1, h1, h2⟩ := (tick_cap (⟨Real.sqrt, Real.arctan, Real.pi⟩ : Glm ℝ) (fun _ => 0)
    (App.start (fun _ => 0) : App ℝ) ⟨rfl, rfl⟩).1 (by norm_num [App.start])
  exact ⟨s1, h1, by rw [h2]; rfl⟩

end Cap

section ZeroArea
variable {F : Type} [LinearOrderedField F] [FloorRing F]

omit [LinearOrderedField F] [FloorRing F] in
/-- A loop whose body does nothing returns its state. -/
theorem forLoop_skip {S : Type} (n : Int) (body : Nat → S → Option S)
    (hb : ∀ i st, body i st = some st) (s : S) : forLoop n body s = some s := by
  unfold forLoop
  induction List.range n.toNat generalizing s with
  | nil => rfl
  | cons i l ih =>
    rw [List.foldlM_cons, hb]
    exact ih s

/-- C9, zero-area resolution: `ResizeTexture(w, h)` with `w = 0` or `h = 0` returns and
leaves a pixel buffer of zero elements; the following sampling step does not fault: no
`(x, y)` passes both loop tests of `Sample`, so its pass runs the loop body (pixel access
and `CastRay`) for no pixel and only regenerates the kernel; `sample` becomes 1, `rays`
stays 0 and the buffer stays empty. -/
theorem zero_area_tick (G : Glm F) (oob : RNG F → F) (s : App F) (w h : Int)
    (hz : w = 0 ∨ h = 0) :
    ∃ s1, s.ResizeTexture w h = some s1 ∧ s1.pixels.length = 0 ∧ s1.textureSize = ⟨w, h⟩
      ∧ (∀ y x : Nat, ¬ ((y : Int) < s1.textureSize.y ∧ (x : Int) < s1.textureSize.x))
      ∧ (∀ weight jitter, s1.Sample G oob weight jitter
          = some { s1 with rng := s1.rng.UpdateRandomKernel })
      ∧ s1.tick G oob = some { s1 with sample := 1, rng := s1.rng.UpdateRandomKernel }
      ∧ ∃ s2, s1.tick G oob = some s2 ∧ s2.sample = 1 ∧ s2.rays = 0 ∧ s2.pixels = [] := by
  have hwh : w * h = 0 := by
    rcases hz with hz | hz <;> simp [hz]
  obtain ⟨s1, hs1⟩ := resizeTexture_some s w h (by rw [hwh]) (by rw [hwh]; norm_num)
  have e := resizeTexture_spec s s1 w h hs1
  have hpx : s1.pixels = [] := by
    rw [e]
    simp [hwh, resize]
  have hts : s1.textureSize = ⟨w, h⟩ := by rw [e]
  have hsample : s1.sample = 0 := by rw [e]
  have hrays : s1.rays = 0 := by rw [e]
  have hpass : ∀ (a : App F) (weight jitter : F), a.textureSize = ⟨w, h⟩ →
      a.Sample G oob weight jitter = some { a with rng := a.rng.UpdateRandomKernel } := by
    intro a weight jitter ha
    unfold App.Sample
    rw [ha]
    rcases hz with hz | hz
    · subst hz
      exact forLoop_skip _ _ (fun i st => forLoop_zero _ _) _
    · subst hz
      exact forLoop_zero _ _
  have htick : s1.tick G oob = some { s1 with sample := 1, rng := s1.rng.UpdateRandomKernel } := by
    rw [tick_of_sample_zero G oob s1 hsample]
    exact hpass _ _ _ hts
  refine ⟨s1, hs1, by rw [hpx]; rfl, hts, ?_, fun weight jitter => hpass s1 weight jitter hts,
    htick, _, htick, rfl, hrays, hpx⟩
  intro y x hyx
  rw [hts] at hyx
  rcases hz with hz | hz
  · subst hz; exact absurd hyx.2 (by simp)
  · subst hz; exact absurd hyx.1 (by simp)

/-- C9, the scenario of the specification: after a resize to `(0, 60)` the buffer has zero
elements and the sampling step returns. -/
theorem zero_area_tick_scene :
    ∃ s1 s2, (App.start (fun _ => 0) : App ℝ).ResizeTexture 0 60 = some s1
      ∧ s1.pixels.length = 0
      ∧ s1.tick ⟨Real.sqrt, Real.arctan, Real.pi⟩ (fun _ => 0) = some s2 ∧ s2.rays = 0 := by
  obtain ⟨s1, h1, h2, _, _, _, _, s2, h3, _, h4, _⟩ :=
    zero_area_tick (⟨Real.sqrt, Real.arctan, Real.pi⟩ : Glm ℝ) (fun _ => 0)
      (App.start (fun _ => 0) : App ℝ) 0 60 (Or.inl rfl)
  exact ⟨s1, s2, h1, h2, h3, h4⟩

/-- The constructor on a window of 800 by 600 returns a state with a texture of 80 by 60
and 4800 pixels. -/
theorem init_800_600 :
    ∃ a, App.init (fun _ => (0 : ℝ)) 800 600 = some a ∧ a.textureSize = ⟨80, 60⟩
      ∧ a.pixels.length = 4800 ∧ a.sample = 0 := by
  have h1 : toInt (((800 : Int) : ℝ) * (1 / 10)) = 80 := by
    have : (((800 : Int) : ℝ) * (1 / 10)) = ((80 : Int) : ℝ) := by norm_num
    rw [this]
    simp [toInt]
  have h2 : toInt (((600 : Int) : ℝ) * (1 / 10)) = 60 := by
    have : (((600 : Int) : ℝ) * (1 / 10)) = ((60 : Int) : ℝ) := by norm_num
    rw [this]
    simp [toInt]
  have hinit : App.init (fun _ => (0 : ℝ)) 800 600
      = ({ App.start (fun _ => (0 : ℝ)) with windowSize := ⟨800, 600⟩ } : App ℝ).ResizeTexture
          80 60 := by
    simp only [App.init, App.OnResize]
    rw [show (App.start (fun _ => (0 : ℝ))).texSizeMultiplier = 1 / 10 from rfl, h1, h2]
  obtain ⟨a, ha⟩ := resizeTexture_some
    ({ App.start (fun _ => (0 : ℝ)) with windowSize := ⟨800, 600⟩ } : App ℝ) 80 60
    (by norm_num) (by norm_num)
  have e := resizeTexture_spec _ a _ _ ha
  refine ⟨a, hinit.trans ha, by rw [e], ?_, by rw [e]⟩
  rw [e]
  exact resize_length _ _

end ZeroArea

/-! ## Degenerate intersections: tangent rays and spheres of radius zero -/

section Degenerate
variable {F : Type} [LinearOrderedField F]

/-- The square of `glm::dot(a, b)` is at most `dot(a, a) * dot(b, b)`. -/
theorem dot_mul_self_le (a b : Vec3 F) : dot a b * dot a b ≤ dot a a * dot b b := by
  simp only [dot]
  nlinarith [sq_nonneg (a.x * b.y - a.y * b.x), sq_nonneg (a.x * b.z - a.z * b.x),
    sq_nonneg (a.y * b.z - a.z * b.y)]

/-- C11 (amended): for every ray and every sphere whose discriminant `b^2 - c` is exactly
zero (a tangent ray), both roots are `-b`, and `Sphere::Hit` records a hit exactly when
`-b` is at least `Eps` and at most the current `ray.t`: it then returns true, sets `ray.t`
to `-b`, `hit.point` to `origin + dir * (-b)` and `hit.normal` to the normalisation of
`hit.point - center`; otherwise it returns false and leaves ray and hit unchanged.  With a
unit direction the vector that is normalised has squared length `radius^2`, so for
`radius > 0` it is not a zero-length vector.  For a sphere of radius 0 and a unit direction
the discriminant is never positive, so a non-negative discriminant is zero and the same
rule decides. -/
theorem sphereHit_tangent (G : Glm F) (hs0 : G.sqrt 0 = 0) (s : Sphere F) (ray : Ray F)
    (hit : Hit F)
    (hdisc : dot (ray.origin.sub s.center) ray.dir * dot (ray.origin.sub s.center) ray.dir
      - (dot (ray.origin.sub s.center) (ray.origin.sub s.center) - s.radius * s.radius) = 0) :
    s.Hit G ray hit =
      (if Eps ≤ -dot (ray.origin.sub s.center) ray.dir
          ∧ ((-dot (ray.origin.sub s.center) ray.dir : F) : WithTop F) ≤ ray.t then
        (true, { ray with t := ((-dot (ray.origin.sub s.center) ray.dir : F) : WithTop F) },
          ⟨ray.origin.add (ray.dir.scale (-dot (ray.origin.sub s.center) ray.dir)),
           normalize G ((ray.origin.add
             (ray.dir.scale (-dot (ray.origin.sub s.center) ray.dir))).sub s.center)⟩)
       else (false, ray, hit))
    ∧ (dot ray.dir ray.dir = 1 →
        dot ((ray.origin.add
            (ray.dir.scale (-dot (ray.origin.sub s.center) ray.dir))).sub s.center)
          ((ray.origin.add
            (ray.dir.scale (-dot (ray.origin.sub s.center) ray.dir))).sub s.center)
          = s.radius * s.radius)
    ∧ (s.radius = 0 → ∀ ray2 : Ray F, dot ray2.dir ray2.dir = 1 → s.disc2 ray2 ≤ 0) := by
  refine ⟨?_, ?_, ?_⟩
  · have hd : s.disc2 ray = 0 := hdisc
    have hn : ¬ s.disc2 ray < 0 := by rw [hd]; exact lt_irrefl 0
    unfold Sphere.Hit
    rw [if_neg hn]
    simp only [hd, hs0, sub_zero, add_zero, Sphere.halfB, Sphere.accept]
    by_cases h : Eps ≤ -dot (ray.origin.sub s.center) ray.dir
        ∧ ((-dot (ray.origin.sub s.center) ray.dir : F) : WithTop F) ≤ ray.t
    · have h2 : ¬ (-dot (ray.origin.sub s.center) ray.dir < Eps
          ∨ ray.t < ((-dot (ray.origin.sub s.center) ray.dir : F) : WithTop F)) := by
        rintro (h3 | h3)
        · exact absurd h.1 (not_le.mpr h3)
        · exact absurd h.2 (not_le.mpr h3)
      rw [if_neg h2, if_pos h]
    · have h2 : -dot (ray.origin.sub s.center) ray.dir < Eps
          ∨ ray.t < ((-dot (ray.origin.sub s.center) ray.dir : F) : WithTop F) := by
        by_contra hc
        push_neg at hc
        exact h hc
      rw [if_pos h2, if_pos h2, if_neg h]
  · intro hdir
    rcases ray with ⟨o, d, t⟩
    rcases s with ⟨c, r⟩
    simp only [dot, Vec3.sub, Vec3.add, Vec3.scale] at hdisc hdir ⊢
    have e : (o.x + d.x * -((o.x - c.x) * d.x + (o.y - c.y) * d.y + (o.z - c.z) * d.z) - c.x)
          * (o.x + d.x * -((o.x - c.x) * d.x + (o.y - c.y) * d.y + (o.z - c.z) * d.z) - c.x)
        + (o.y + d.y * -((o.x - c.x) * d.x + (o.y - c.y) * d.y + (o.z - c.z) * d.z) - c.y)
          * (o.y + d.y * -((o.x - c.x) * d.x + (o.y - c.y) * d.y + (o.z - c.z) * d.z) - c.y)
        + (o.z + d.z * -((o.x - c.x) * d.x + (o.y - c.y) * d.y + (o.z - c.z) * d.z) - c.z)
          * (o.z + d.z * -((o.x - c.x) * d.x + (o.y - c.y) * d.y + (o.z - c.z) * d.z) - c.z)
        = ((o.x - c.x) * (o.x - c.x) + (o.y - c.y) * (o.y - c.y) + (o.z - c.z) * (o.z - c.z))
          - ((o.x - c.x) * d.x + (o.y - c.y) * d.y + (o.z - c.z) * d.z)
            * ((o.x - c.x) * d.x + (o.y - c.y) * d.y + (o.z - c.z) * d.z)
            * (2 - (d.x * d.x + d.y * d.y + d.z * d.z)) := by ring
    rw [e, hdir]
    linarith
  · intro hr ray2 hdir
    have hcs := dot_mul_self_le (ray2.origin.sub s.center) ray2.dir
    rw [hdir, mul_one] at hcs
    simp only [Sphere.disc2, Sphere.halfB, length2, hr, mul_zero, sub_zero]
    linarith

/-- C11, a tangent ray on the unit sphere: the ray from `(1,0,5)` along `(0,0,-1)` with
`t = Inf` has discriminant zero and `Sphere::Hit` records the hit at `t = 5`, point
`(1,0,0)`, normal `(1,0,0)`. -/
theorem sphereHit_tangent_unit_sphere :
    Sphere.Hit (⟨Real.sqrt, Real.arctan, Real.pi⟩ : Glm ℝ) ⟨⟨0, 0, 0⟩, 1⟩
        ⟨⟨1, 0, 5⟩, ⟨0, 0, -1⟩, ⊤⟩ Hit.zero
      = (true, ⟨⟨1, 0, 5⟩, ⟨0, 0, -1⟩, ((5 : ℝ) : WithTop ℝ)⟩, ⟨⟨1, 0, 0⟩, ⟨1, 0, 0⟩⟩) := by
  rw [(sphereHit_tangent (⟨Real.sqrt, Real.arctan, Real.pi⟩ : Glm ℝ) Real.sqrt_zero
    ⟨⟨0, 0, 0⟩, 1⟩ ⟨⟨1, 0, 5⟩, ⟨0, 0, -1⟩, ⊤⟩ Hit.zero (by norm_num [dot, Vec3.sub])).1]
  norm_num [dot, Vec3.sub, Vec3.add, Vec3.scale, normalize, Eps]

/-- C11 as worded fails at its own scenario: for the sphere with centre `(0,0,0)` and
radius 0 and the ray from `(0,0,1)` along `(0,0,-1)` with `t = Inf` the discriminant is
zero, yet `Sphere::Hit` returns true and sets `ray.t` to 1, and the vector it normalises for
the normal, `hit.point - center`, is the zero vector. -/
theorem sphereHit_zero_radius_hits :
    Sphere.disc2 (⟨⟨0, 0, 0⟩, 0⟩ : Sphere ℝ) ⟨⟨0, 0, 1⟩, ⟨0, 0, -1⟩, ⊤⟩ = 0
    ∧ (Sphere.Hit (⟨Real.sqrt, Real.arctan, Real.pi⟩ : Glm ℝ) ⟨⟨0, 0, 0⟩, 0⟩
        ⟨⟨0, 0, 1⟩, ⟨0, 0, -1⟩, ⊤⟩ Hit.zero).1 = true
    ∧ (Sphere.Hit (⟨Real.sqrt, Real.arctan, Real.pi⟩ : Glm ℝ) ⟨⟨0, 0, 0⟩, 0⟩
        ⟨⟨0, 0, 1⟩, ⟨0, 0, -1⟩, ⊤⟩ Hit.zero).2.1.t = ((1 : ℝ) : WithTop ℝ)
    ∧ ((Sphere.Hit (⟨Real.sqrt, Real.arctan, Real.pi⟩ : Glm ℝ) ⟨⟨0, 0, 0⟩, 0⟩
        ⟨⟨0, 0, 1⟩, ⟨0, 0, -1⟩, ⊤⟩ Hit.zero).2.2.point.sub ⟨0, 0, 0⟩ : Vec3 ℝ) = ⟨0, 0, 0⟩ := by
  have hd : Sphere.disc2 (⟨⟨0, 0, 0⟩, 0⟩ : Sphere ℝ) ⟨⟨0, 0, 1⟩, ⟨0, 0, -1⟩, ⊤⟩ = 0 := by
    norm_num [Sphere.disc2, Sphere.halfB, length2, dot, Vec3.sub]
  have hb : Sphere.halfB (⟨⟨0, 0, 0⟩, 0⟩ : Sphere ℝ) ⟨⟨0, 0, 1⟩, ⟨0, 0, -1⟩, ⊤⟩ = -1 := by
    norm_num [Sphere.halfB, dot, Vec3.sub]
  have he : ¬ ((1 : ℝ) < Eps) := by norm_num [Eps]
  refine ⟨hd, ?_, ?_, ?_⟩ <;>
    simp [Sphere.Hit, hd, hb, he, Sphere.accept, Vec3.add, Vec3.scale, Vec3.sub]

end Degenerate

end RayGen
